import Mathlib

/-!
# PatternTerm (opencog/query/PatternTerm.h)

A shallow embedding of the PatternTerm class and of the comparison
`std::less<PatternTermPtr>`.

Nodes live in a heap.  A `PatternTermPtr` is the address of a node; address 0
is the null pointer.  A `std::shared_ptr` and a `std::weak_ptr` are both
modelled by the address they refer to; a weak pointer is expired when the cell
at its address holds no object.  Addresses are handed out in increasing order
and are never handed out twice, so a weak pointer to a destroyed object stays
expired.
-/

namespace opencog

/-! ## Handles -/

/-- Modelled from the spec: the class Handle (opencog/atomspace/Handle.h) is
not among the sources.  The spec describes AtomRef as an opaque identity with
equality and a stable total order, and the source reads a number from it with
`value()`.  A handle is modelled by that number; equality and order are the
equality and order of the numbers. -/
structure Handle where
  value : Nat
deriving DecidableEq

instance : LT Handle := ⟨fun a b => a.value < b.value⟩

instance (a b : Handle) : Decidable (a < b) :=
  inferInstanceAs (Decidable (a.value < b.value))

/-- Modelled from the spec: the constant Handle::UNDEFINED (the undefined
atom; `h == nullptr` in the source tests for it) is not among the sources.
It is one fixed handle; no result below depends on which number it carries. -/
def Handle.UNDEFINED : Handle := ⟨2 ^ 64 - 1⟩

/-! ## Nodes and the heap -/

/-- The address of a node (what a `PatternTermPtr` or `PatternTermWPtr`
refers to). -/
abbrev PatternTermPtr := Nat

/-- The null pointer. -/
def nullptr : PatternTermPtr := 0

/-- Width of `unsigned int`: arithmetic on `_quote_depth` is modulo this. -/
def UINT_MOD : Nat := 2 ^ 32

/-- The data members of class PatternTerm. -/
structure PatternTerm where
  _handle : Handle
  _parent : PatternTermPtr
  _outgoing : List PatternTermPtr
  _quote_depth : Nat
  _has_any_bound_var : Bool
deriving DecidableEq

/-- The heap: cell `p` holds the object at address `p`, or nothing when no
object lives there (never allocated, or destroyed). -/
abbrev Heap := List (Option PatternTerm)

/-- Dereference a pointer: `none` for the null pointer and for an address
that holds no object. -/
def deref (hp : Heap) (p : PatternTermPtr) : Option PatternTerm :=
  if p = nullptr then none else (hp.get? p).join

/-- Overwrite the object at address `p`. -/
def store (hp : Heap) (p : PatternTermPtr) (t : PatternTerm) : Heap :=
  hp.set p (some t)

/-- The call `std::make_shared<PatternTerm>(...)`: the new object gets the
next address. -/
def make_shared (hp : Heap) (t : PatternTerm) : Heap × PatternTermPtr :=
  (hp ++ [some t], hp.length)

/-- The call `w.lock()` on a weak pointer: the pointer itself while the
object is alive, the null pointer once it is gone. -/
def lock (hp : Heap) (w : PatternTermPtr) : PatternTermPtr :=
  if (deref hp w).isSome then w else nullptr

/-- Modelled from the spec: the definition of the static member
`PatternTerm::UNDEFINED` (PatternTerm.cc) is not among the sources.  The spec
describes a single shared sentinel node used as the parent of roots.  It
lives at a fixed address. -/
def PatternTerm.UNDEFINED : PatternTermPtr := 1

/-- The default constructor `PatternTerm()`, lines 103-109.  The argument is
the value the static `PatternTerm::UNDEFINED` has when the constructor
runs. -/
def PatternTerm.default (undefinedNow : PatternTermPtr) : PatternTerm :=
  { _handle := Handle.UNDEFINED
    _parent := undefinedNow
    _outgoing := []
    _quote_depth := 0
    _has_any_bound_var := false }

/-- Modelled from the spec: the sentinel object itself (its definition is not
among the sources): an empty node with undefined atom, quote depth 0 and no
bound variable.  It is built by the default constructor while the static
that will hold it is still null. -/
def sentinel : PatternTerm := PatternTerm.default nullptr

/-- The constructor `PatternTerm(parent, h)`, lines 111-117.  It reads
`parent->_quote_depth`, so it needs a live parent. -/
def PatternTerm.new (hp : Heap) (parent : PatternTermPtr) (h : Handle) :
    Option PatternTerm :=
  match deref hp parent with
  | none => none
  | some p =>
    some { _parent := parent
           _handle := h
           _quote_depth := p._quote_depth
           _has_any_bound_var := false
           _outgoing := [] }

/-! ## Accessors -/

/-- The method `getHandle`, lines 124-127. -/
def PatternTerm.getHandle (t : PatternTerm) : Handle := t._handle

/-- The method `getParent`, lines 129-132. -/
def PatternTerm.getParent (t : PatternTerm) : PatternTermPtr := t._parent

/-- The method `getOutgoingSet`, lines 134-144: the weak pointers that can
still be locked, in order. -/
def PatternTerm.getOutgoingSet (hp : Heap) (t : PatternTerm) :
    List PatternTermPtr :=
  t._outgoing.filterMap fun w =>
    let s := lock hp w
    if s ≠ nullptr then some s else none

/-- Modelled from the spec: the typedef `Arity` is not among the sources; the
spec gives a non-negative integer.  The method `getArity`, lines 146-149. -/
def PatternTerm.getArity (t : PatternTerm) : Nat := t._outgoing.length

/-- The method `isQuoted`, lines 151-156.  It reads the parent, so it has no
value when the parent pointer cannot be dereferenced. -/
def PatternTerm.isQuoted (hp : Heap) (t : PatternTerm) : Option Bool :=
  match deref hp t._parent with
  | none => none
  | some p => some (decide (p._quote_depth > 0))

/-- The method `hasAnyBoundVariable`, lines 158-161. -/
def PatternTerm.hasAnyBoundVariable (t : PatternTerm) : Bool :=
  t._has_any_bound_var

/-- A `RuntimeException`: the format string and its argument. -/
structure RuntimeException where
  fmt : String
  arg : Nat
deriving DecidableEq

instance : DecidableEq (Except RuntimeException PatternTermPtr)
  | Except.ok a, Except.ok b =>
    if h : a = b then isTrue (by rw [h]) else isFalse (fun e => h (Except.ok.inj e))
  | Except.error a, Except.error b =>
    if h : a = b then isTrue (by rw [h]) else isFalse (fun e => h (Except.error.inj e))
  | Except.ok _, Except.error _ => isFalse (fun e => Except.noConfusion e)
  | Except.error _, Except.ok _ => isFalse (fun e => Except.noConfusion e)

/-- The method `getOutgoingTerm`, lines 163-176. -/
def PatternTerm.getOutgoingTerm (hp : Heap) (t : PatternTerm) (pos : Nat) :
    Except RuntimeException PatternTermPtr :=
  if h : pos < t.getArity then
    let s := lock hp (t._outgoing.get ⟨pos, h⟩)
    if s = nullptr then
      Except.error ⟨"expired outgoing set index %d", pos⟩
    else
      Except.ok s
  else
    Except.error ⟨"invalid outgoing set index %d", pos⟩

/-- The method `toString`, lines 191-197.  `std::to_string` of the handle
value is its decimal notation.  The call on the parent passes no argument, so
the parent is rendered with the default indent ":".  The first argument
bounds the depth of the recursion; the result is `none` when it is used up
or when a pointer on the way cannot be dereferenced. -/
def PatternTerm.toString : Nat → Heap → PatternTermPtr → String → Option String
  | 0, _, _, _ => none
  | fuel + 1, hp, this, indent =>
    match deref hp this with
    | none => none
    | some t =>
      if t._handle = Handle.UNDEFINED then some "-"
      else
        match PatternTerm.toString fuel hp t._parent ":" with
        | none => none
        | some str => some (str ++ (indent ++ Nat.repr t._handle.value))

/-! ## Mutators

Each takes the heap and the address of the object it is called on; the result
is `none` when that address cannot be dereferenced. -/

/-- The method `addOutgoingTerm`, lines 119-122. -/
def addOutgoingTerm (hp : Heap) (this ptm : PatternTermPtr) : Option Heap :=
  match deref hp this with
  | none => none
  | some t => some (store hp this { t with _outgoing := t._outgoing ++ [ptm] })

/-- The method `addQuote`, line 178. -/
def addQuote (hp : Heap) (this : PatternTermPtr) : Option Heap :=
  match deref hp this with
  | none => none
  | some t =>
    some (store hp this { t with _quote_depth := (t._quote_depth + 1) % UINT_MOD })

/-- The method `remQuote`, line 179. -/
def remQuote (hp : Heap) (this : PatternTermPtr) : Option Heap :=
  match deref hp this with
  | none => none
  | some t =>
    some (store hp this
      { t with _quote_depth := (t._quote_depth + UINT_MOD - 1) % UINT_MOD })

/-- The method `addBoundVariable`, lines 181-189.  The first argument bounds
the depth of the recursion; the result is `none` when it is used up or when a
pointer on the way cannot be dereferenced. -/
def addBoundVariable : Nat → Heap → PatternTermPtr → Option Heap
  | 0, _, _ => none
  | fuel + 1, hp, this =>
    match deref hp this with
    | none => none
    | some t =>
      if !t._has_any_bound_var then
        let hp1 := store hp this { t with _has_any_bound_var := true }
        if t._parent ≠ PatternTerm.UNDEFINED then
          addBoundVariable fuel hp1 t._parent
        else
          some hp1
      else
        some hp

/-! ## The ordering -/

/-- The comparison `std::less<PatternTermPtr>::operator()`, lines 217-227.

`lhs->getParent() < rhs->getParent()` applies `operator<` to two
`std::shared_ptr<PatternTerm>` values.  That operator is the one of the
standard library, which compares the stored addresses; the specialisation of
`std::less` being defined here is not what `<` on two shared pointers
calls. -/
def less (hp : Heap) (lhs rhs : PatternTermPtr) : Option Bool :=
  match deref hp lhs, deref hp rhs with
  | some l, some r =>
    let lHandle := l.getHandle
    let rHandle := r.getHandle
    if lHandle = rHandle then
      if lHandle = Handle.UNDEFINED then some false
      else some (decide (l.getParent < r.getParent))
    else
      some (decide (lHandle < rHandle))
  | _, _ => none

/-! ## Construction steps -/

/-- What a client of the class can do to the heap. -/
inductive Op where
  /-- The call `std::make_shared<PatternTerm>()`. -/
  | mkRoot
  /-- The call `std::make_shared<PatternTerm>(parent, h)`. -/
  | mkChild (parent : PatternTermPtr) (h : Handle)
  | addOutgoingTerm (this ptm : PatternTermPtr)
  | addQuote (this : PatternTermPtr)
  | remQuote (this : PatternTermPtr)
  | addBoundVariable (this : PatternTermPtr)
  /-- The last shared pointer to the object at `p` goes away. -/
  | release (p : PatternTermPtr)
deriving DecidableEq

/-- No live object holds a shared pointer (its `_parent`) to `p`. -/
def unowned (hp : Heap) (p : PatternTermPtr) : Bool :=
  hp.all fun c =>
    match c with
    | none => true
    | some t => t._parent != p

/-- Destroy the object at `p`.  The static sentinel is never destroyed, and
an object that is the `_parent` of a live object is kept alive by it. -/
def release (hp : Heap) (p : PatternTermPtr) : Option Heap :=
  if p ≠ PatternTerm.UNDEFINED ∧ (deref hp p).isSome ∧ unowned hp p = true then
    some (hp.set p none)
  else
    none

/-- One step.  A shared pointer handed to `addOutgoingTerm` is null or refers
to a live object. -/
def step (hp : Heap) : Op → Option Heap
  | Op.mkRoot => some (make_shared hp (PatternTerm.default PatternTerm.UNDEFINED)).1
  | Op.mkChild parent h =>
    match PatternTerm.new hp parent h with
    | none => none
    | some t => some (make_shared hp t).1
  | Op.addOutgoingTerm this ptm =>
    if ptm = nullptr ∨ (deref hp ptm).isSome then addOutgoingTerm hp this ptm
    else none
  | Op.addQuote this => addQuote hp this
  | Op.remQuote this => remQuote hp this
  | Op.addBoundVariable this => addBoundVariable hp.length hp this
  | Op.release p => release hp p

/-- A sequence of steps. -/
def run (hp : Heap) : List Op → Option Heap
  | [] => some hp
  | op :: ops =>
    match step hp op with
    | none => none
    | some hp1 => run hp1 ops

/-- The heap before any node is built: only the sentinel exists. -/
def init : Heap := [none, some sentinel]

/-! ## Example clauses -/

/-- The clause `Pair(X, X)`: the node for Pair under the sentinel, then two
nodes for X under it, each attached after it is built. -/
def pairOps : List Op :=
  [Op.mkChild PatternTerm.UNDEFINED ⟨10⟩,
   Op.mkChild 2 ⟨20⟩, Op.addOutgoingTerm 2 3,
   Op.mkChild 2 ⟨20⟩, Op.addOutgoingTerm 2 4]

/-- The heap that `pairOps` builds: Pair at 2, the two X nodes at 3 and 4. -/
def pairHeap : Heap :=
  [none, some sentinel,
   some ⟨⟨10⟩, 1, [3, 4], 0, false⟩,
   some ⟨⟨20⟩, 2, [], 0, false⟩,
   some ⟨⟨20⟩, 2, [], 0, false⟩]

/-- The clause `Pair(F(A), F(A))`: Pair at 2, the two F nodes at 3 and 4, the
node for A under the first F at 5 and the one under the second F at 6. -/
def nestedOps : List Op :=
  [Op.mkChild PatternTerm.UNDEFINED ⟨10⟩,
   Op.mkChild 2 ⟨30⟩, Op.addOutgoingTerm 2 3,
   Op.mkChild 2 ⟨30⟩, Op.addOutgoingTerm 2 4,
   Op.mkChild 3 ⟨40⟩, Op.addOutgoingTerm 3 5,
   Op.mkChild 4 ⟨40⟩, Op.addOutgoingTerm 4 6]

/-- The heap that `nestedOps` builds. -/
def nestedHeap : Heap :=
  [none, some sentinel,
   some ⟨⟨10⟩, 1, [3, 4], 0, false⟩,
   some ⟨⟨30⟩, 2, [5], 0, false⟩,
   some ⟨⟨30⟩, 2, [6], 0, false⟩,
   some ⟨⟨40⟩, 3, [], 0, false⟩,
   some ⟨⟨40⟩, 4, [], 0, false⟩]

/-- Two trees for the same clause `F(A)`, built one after the other: the
roots at 2 and 3, their children at 4 and 5. -/
def twinOps : List Op :=
  [Op.mkChild PatternTerm.UNDEFINED ⟨30⟩,
   Op.mkChild PatternTerm.UNDEFINED ⟨30⟩,
   Op.mkChild 2 ⟨40⟩, Op.addOutgoingTerm 2 4,
   Op.mkChild 3 ⟨40⟩, Op.addOutgoingTerm 3 5]

/-- The heap that `twinOps` builds. -/
def twinHeap : Heap :=
  [none, some sentinel,
   some ⟨⟨30⟩, 1, [4], 0, false⟩,
   some ⟨⟨30⟩, 1, [5], 0, false⟩,
   some ⟨⟨40⟩, 2, [], 0, false⟩,
   some ⟨⟨40⟩, 3, [], 0, false⟩]

/-- Scenario S1, the clause `Set(V_a, Blah(V_a, V_b))`: Set at 2, the first
V_a at 3, Blah at 4, the second V_a at 5, V_b at 6.  Each variable node is
marked as a bound variable before it is attached. -/
def s1Ops : List Op :=
  [Op.mkChild PatternTerm.UNDEFINED ⟨10⟩,
   Op.mkChild 2 ⟨21⟩, Op.addBoundVariable 3, Op.addOutgoingTerm 2 3,
   Op.mkChild 2 ⟨11⟩,
   Op.mkChild 4 ⟨21⟩, Op.addBoundVariable 5, Op.addOutgoingTerm 4 5,
   Op.mkChild 4 ⟨22⟩, Op.addBoundVariable 6, Op.addOutgoingTerm 4 6,
   Op.addOutgoingTerm 2 4]

/-- The heap that `s1Ops` builds. -/
def s1Heap : Heap :=
  [none, some sentinel,
   some ⟨⟨10⟩, 1, [3, 4], 0, true⟩,
   some ⟨⟨21⟩, 2, [], 0, true⟩,
   some ⟨⟨11⟩, 2, [5, 6], 0, true⟩,
   some ⟨⟨21⟩, 4, [], 0, true⟩,
   some ⟨⟨22⟩, 4, [], 0, true⟩]

/-- A node for atom 10 at 2, a child for atom 20 at 3 attached to it, and
then the child is destroyed. -/
def releasedOps : List Op :=
  [Op.mkChild PatternTerm.UNDEFINED ⟨10⟩, Op.mkChild 2 ⟨20⟩,
   Op.addOutgoingTerm 2 3, Op.release 3]

/-- The heap that `releasedOps` builds: the cell of the child is empty. -/
def releasedHeap : Heap :=
  [none, some sentinel, some ⟨⟨10⟩, 1, [3], 0, false⟩, none]

/-- The format string of the exception for an index that is not below the
arity, line 174. -/
def invalidIndex : String := "invalid outgoing set index %d"

/-- The format string of the exception for a child that is gone, line 170. -/
def expiredIndex : String := "expired outgoing set index %d"

/-- Scenario S2, the clause `Q[Foo(V_x)]`: the node for the quotation at 2
gets `addQuote` before its content is built; Foo at 3, V_x at 4. -/
def s2Ops : List Op :=
  [Op.mkChild PatternTerm.UNDEFINED ⟨50⟩, Op.addQuote 2,
   Op.mkChild 2 ⟨51⟩, Op.addOutgoingTerm 2 3,
   Op.mkChild 3 ⟨21⟩, Op.addBoundVariable 4, Op.addOutgoingTerm 3 4]

/-- The heap that `s2Ops` builds. -/
def s2Heap : Heap :=
  [none, some sentinel,
   some ⟨⟨50⟩, 1, [3], 1, true⟩,
   some ⟨⟨51⟩, 2, [4], 1, true⟩,
   some ⟨⟨21⟩, 3, [], 1, true⟩]

/-- A node for atom 10 at 2 with a child for atom 20 at 3, and then
`remQuote` on node 2, whose `_quote_depth` is 0. -/
def unbalancedOps : List Op :=
  [Op.mkChild PatternTerm.UNDEFINED ⟨10⟩, Op.mkChild 2 ⟨20⟩,
   Op.addOutgoingTerm 2 3, Op.remQuote 2]

/-- The heap that `unbalancedOps` builds. -/
def unbalancedHeap : Heap :=
  [none, some sentinel,
   some ⟨⟨10⟩, 1, [3], 4294967295, false⟩,
   some ⟨⟨20⟩, 2, [], 0, false⟩]

/-- A tree under a default-constructed root: the root (undefined atom) at 2,
a node for atom 10 at 3 under it, and a node for atom 20 at 4 under that. -/
def rootedOps : List Op :=
  [Op.mkRoot, Op.mkChild 2 ⟨10⟩, Op.addOutgoingTerm 2 3,
   Op.mkChild 3 ⟨20⟩, Op.addOutgoingTerm 3 4]

/-- The heap that `rootedOps` builds. -/
def rootedHeap : Heap :=
  [none, some sentinel,
   some ⟨Handle.UNDEFINED, 1, [3], 0, false⟩,
   some ⟨⟨10⟩, 2, [4], 0, false⟩,
   some ⟨⟨20⟩, 3, [], 0, false⟩]

/-! ## Notions used to state the properties -/

/-- What `less` decides, written on the two nodes: the atoms are equal, not
undefined, and the parent addresses are in order; or the atoms are in
order. -/
def Before (l r : PatternTerm) : Prop :=
  (l._handle = r._handle ∧ l._handle ≠ Handle.UNDEFINED ∧ l._parent < r._parent) ∨
    l._handle.value < r._handle.value

instance (l r : PatternTerm) : Decidable (Before l r) := by
  unfold Before; infer_instance

/-- A live node `a` lies on the parent chain of the node `n`, strictly above
`n`. -/
inductive Ancestor (hp : Heap) : PatternTermPtr → PatternTermPtr → Prop where
  | parent {n : PatternTermPtr} {t : PatternTerm} :
      deref hp n = some t → (deref hp t._parent).isSome → Ancestor hp t._parent n
  | up {a n : PatternTermPtr} {t : PatternTerm} :
      deref hp n = some t → Ancestor hp a t._parent → Ancestor hp a n

/-- The node at `p` is live and reports `hasAnyBoundVariable() == true`. -/
def Flagged (hp : Heap) (p : PatternTermPtr) : Prop :=
  ∃ t, deref hp p = some t ∧ t.hasAnyBoundVariable = true

/-- The step destroys an object. -/
def Op.isRelease : Op → Bool
  | Op.release _ => true
  | _ => false

/-- Structural facts of a heap built by the steps: the sentinel is live, has
no bound-variable mark and a null parent; every other live node has a live
parent at a smaller address. -/
structure Struct (hp : Heap) : Prop where
  sent : ∃ s, deref hp PatternTerm.UNDEFINED = some s ∧
    s._has_any_bound_var = false ∧ s._parent = nullptr
  parent : ∀ n t, deref hp n = some t → n ≠ PatternTerm.UNDEFINED →
    t._parent < n ∧ (deref hp t._parent).isSome

/-- Every marked node has the sentinel as parent, or `q`, or a marked node. -/
def MonoAt (hp : Heap) (q : PatternTermPtr) : Prop :=
  ∀ n t, deref hp n = some t → t._has_any_bound_var = true →
    t._parent = PatternTerm.UNDEFINED ∨ t._parent = q ∨ Flagged hp t._parent

/-- The heap `hp1` has every live node of `hp`, with the same parent. -/
def KeepsParents (hp hp1 : Heap) : Prop :=
  ∀ p t, deref hp p = some t → ∃ t1, deref hp1 p = some t1 ∧ t1._parent = t._parent

/-- The heap `hp1` has the live nodes of `hp` and no other, each with the
same parent and the same bound-variable mark. -/
def Agree (hp hp1 : Heap) : Prop :=
  ∀ p, (deref hp1 p).map (fun t => (t._parent, t._has_any_bound_var)) =
    (deref hp p).map (fun t => (t._parent, t._has_any_bound_var))

/-- How `addBoundVariable` called on `q` may change a heap: the same cells
hold objects, every object keeps all members except that a bound-variable
mark may be set, and a mark is newly set only on `q` or on an ancestor of
`q`. -/
def FlagExt (hp hp1 : Heap) (q : PatternTermPtr) : Prop :=
  hp1.length = hp.length ∧
  (∀ p, deref hp p = none → deref hp1 p = none) ∧
  (∀ p t, deref hp p = some t →
    ∃ b, deref hp1 p = some { t with _has_any_bound_var := b } ∧
      (t._has_any_bound_var = true → b = true) ∧
      (b = true → t._has_any_bound_var = false → p = q ∨ Ancestor hp p q))

/-- The three kinds of step that destroy nothing: one that keeps every
parent and mark, one that builds a node, and a call of `addBoundVariable`. -/
inductive StepKind (hp hp1 : Heap) (op : Op) : Prop where
  | agree : Agree hp hp1 → (∀ q, op ≠ Op.addBoundVariable q) → StepKind hp hp1 op
  | alloc (t : PatternTerm) : hp1 = hp ++ [some t] → (deref hp t._parent).isSome →
      t._has_any_bound_var = false → (∀ q, op ≠ Op.addBoundVariable q) →
      StepKind hp hp1 op
  | mark (q : PatternTermPtr) : op = Op.addBoundVariable q →
      q ≠ PatternTerm.UNDEFINED → (deref hp q).isSome →
      addBoundVariable hp.length hp q = some hp1 → StepKind hp hp1 op

/-- The steps in `H` that called `addBoundVariable` have marked exactly the
nodes above them: a node other than the sentinel is marked if and only if
`addBoundVariable` was called on it or on a node below it. -/
def Complete (H : List Op) (hp : Heap) : Prop :=
  ∀ n t, deref hp n = some t → n ≠ PatternTerm.UNDEFINED →
    (t._has_any_bound_var = true ↔
      ∃ m, Op.addBoundVariable m ∈ H ∧ (m = n ∨ Ancestor hp n m))

/-- Every node on which a step of `H` called `addBoundVariable` is live. -/
def LiveMarks (H : List Op) (hp : Heap) : Prop :=
  ∀ m, Op.addBoundVariable m ∈ H → (deref hp m).isSome

/-- The same addresses hold live objects in both heaps. -/
def SameLive (hp hp1 : Heap) : Prop :=
  ∀ q, (deref hp1 q).isSome = (deref hp q).isSome

/-- Every weak pointer stored in a live node refers to an address that has
been handed out. -/
def OutBound (hp : Heap) : Prop :=
  ∀ n t, deref hp n = some t → ∀ w ∈ t._outgoing, w < hp.length

/-- The heap `hp1` differs from `hp` at most in bound-variable marks that
are set in `hp1` and were not set in `hp`. -/
def OnlyMarks (hp hp1 : Heap) : Prop :=
  hp1.length = hp.length ∧
  (∀ p, deref hp p = none → deref hp1 p = none) ∧
  (∀ p t, deref hp p = some t →
    ∃ b, deref hp1 p = some { t with _has_any_bound_var := b } ∧
      (t._has_any_bound_var = true → b = true))

/-- Every `_quote_depth` is a value of `unsigned int`. -/
def DepthBound (hp : Heap) : Prop :=
  ∀ n t, deref hp n = some t → t._quote_depth < UINT_MOD

/-- Every live node of `hp` is live in `hp1` with the same atom and the same
parent. -/
def KeepsKey (hp hp1 : Heap) : Prop :=
  ∀ p t, deref hp p = some t →
    ∃ t1, deref hp1 p = some t1 ∧ t1._handle = t._handle ∧ t1._parent = t._parent

/-- The sentinel is live and carries the undefined atom. -/
def SentinelAtom (hp : Heap) : Prop :=
  ∃ s, deref hp PatternTerm.UNDEFINED = some s ∧ s._handle = Handle.UNDEFINED

/-- The node `n` is `d` parent edges below the sentinel, and every node on
the way from `n` up to the sentinel, `n` included and the sentinel excluded,
carries a defined atom. -/
inductive DefinedDepth (hp : Heap) : PatternTermPtr → Nat → Prop where
  | sentinel : DefinedDepth hp PatternTerm.UNDEFINED 0
  | child {n : PatternTermPtr} {t : PatternTerm} {d : Nat} :
      n ≠ PatternTerm.UNDEFINED → deref hp n = some t →
      t._handle ≠ Handle.UNDEFINED → DefinedDepth hp t._parent d →
      DefinedDepth hp n (d + 1)

/-- The number of occurrences of the character ':' in a string. -/
def colons (s : String) : Nat := s.toList.count ':'

/-- The pointers passed to `addOutgoingTerm` on the node `this` by the steps
`ops`, in the order of the calls. -/
def argsOf (ops : List Op) (this : PatternTermPtr) : List PatternTermPtr :=
  ops.filterMap fun op =>
    match op with
    | Op.addOutgoingTerm th c => if th = this then some c else none
    | _ => none

/-- The `_outgoing` of every live node lists the pointers that the steps `H`
passed to `addOutgoingTerm` on it, and no step of `H` was a call on an
address not yet handed out. -/
def Attached (H : List Op) (hp : Heap) : Prop :=
  (∀ n t, deref hp n = some t → t._outgoing = argsOf H n) ∧
  (∀ n, hp.length ≤ n → argsOf H n = [])

/-- The construction discipline: nodes are built with the constructor that
takes a parent (a default-constructed root only while the sentinel has depth
0), `addQuote` is called only on a node that is the `_parent` of no live node
and whose depth does not overflow, and `remQuote` is not called and nothing
is destroyed. -/
def disciplined (hp : Heap) : Op → Bool
  | Op.mkRoot =>
    match deref hp PatternTerm.UNDEFINED with
    | some s => s._quote_depth == 0
    | none => false
  | Op.mkChild _ _ => true
  | Op.addOutgoingTerm _ _ => true
  | Op.addBoundVariable _ => true
  | Op.addQuote this =>
    unowned hp this &&
      match deref hp this with
      | some t => decide (t._quote_depth + 1 < UINT_MOD)
      | none => false
  | Op.remQuote _ => false
  | Op.release _ => false

/-- A sequence of steps, each of which keeps the construction discipline. -/
def runDisciplined (hp : Heap) : List Op → Option Heap
  | [] => some hp
  | op :: ops =>
    if disciplined hp op then
      match step hp op with
      | none => none
      | some hp1 => runDisciplined hp1 ops
    else none

/-- Every live node other than the sentinel has a live parent whose
`_quote_depth` is not above its own. -/
def DepthLe (hp : Heap) : Prop :=
  ∀ n t, deref hp n = some t → n ≠ PatternTerm.UNDEFINED →
    ∃ tp, deref hp t._parent = some tp ∧ tp._quote_depth ≤ t._quote_depth

/-- The heap `hp1` has the live nodes of `hp` and no other, each with the
same parent and the same quote depth. -/
def KeepsDepth (hp hp1 : Heap) : Prop :=
  ∀ p, (deref hp1 p).map (fun t => (t._parent, t._quote_depth)) =
    (deref hp p).map (fun t => (t._parent, t._quote_depth))

/-- The node `n` is `d` parent edges below the nearest node on its parent
chain, itself included, that carries the undefined atom. -/
inductive UndefinedDistance (hp : Heap) : PatternTermPtr → Nat → Prop where
  | stop {n : PatternTermPtr} {t : PatternTerm} :
      deref hp n = some t → t._handle = Handle.UNDEFINED → UndefinedDistance hp n 0
  | edge {n : PatternTermPtr} {t : PatternTerm} {d : Nat} :
      deref hp n = some t → t._handle ≠ Handle.UNDEFINED →
      UndefinedDistance hp t._parent d → UndefinedDistance hp n (d + 1)

/-! ## Basic facts about the heap and the ordering -/

theorem deref_nullptr (hp : Heap) : deref hp nullptr = none := by
  simp [deref]

theorem deref_bound {hp : Heap} {p : PatternTermPtr} {t : PatternTerm}
    (h : deref hp p = some t) : p ≠ nullptr ∧ p < hp.length := by
  unfold deref at h
  by_cases h0 : p = nullptr
  · simp [h0] at h
  · refine ⟨h0, ?_⟩
    by_contra hlt
    have : hp[p]? = none := List.getElem?_eq_none (Nat.le_of_not_lt hlt)
    simp [h0, this] at h

theorem deref_store_same {hp : Heap} {p : PatternTermPtr} (t : PatternTerm)
    (h0 : p ≠ nullptr) (hlt : p < hp.length) : deref (store hp p t) p = some t := by
  simp [deref, store, h0, List.getElem?_set, hlt]

theorem deref_store_other {hp : Heap} {p q : PatternTermPtr} (t : PatternTerm)
    (h : q ≠ p) : deref (store hp p t) q = deref hp q := by
  have h2 : ¬ p = q := fun e => h e.symm
  simp [deref, store, List.getElem?_set, h2]

theorem length_store (hp : Heap) (p : PatternTermPtr) (t : PatternTerm) :
    (store hp p t).length = hp.length := by
  simp [store]

theorem deref_append_old {hp : Heap} {q : PatternTermPtr} (c : Option PatternTerm)
    (h : q < hp.length) : deref (hp ++ [c]) q = deref hp q := by
  simp [deref, List.getElem?_append_left h]

theorem deref_append_new {hp : Heap} (t : PatternTerm) (h : hp.length ≠ 0) :
    deref (hp ++ [some t]) hp.length = some t := by
  have h0 : ¬ hp.length = nullptr := h
  simp [deref, h0]

theorem deref_append_bound {hp : Heap} {q : PatternTermPtr} {c : Option PatternTerm}
    {t : PatternTerm} (h : deref (hp ++ [c]) q = some t) : q ≤ hp.length := by
  have h1 : q < (hp ++ [c]).length := (deref_bound h).2
  rw [List.length_append, List.length_singleton] at h1
  exact Nat.le_of_lt_succ h1

theorem deref_set_none_same (hp : Heap) (p : PatternTermPtr) :
    deref (hp.set p none) p = none := by
  by_cases h0 : p = nullptr
  · simp [deref, h0]
  · by_cases hlt : p < hp.length
    · simp [deref, h0, List.getElem?_set, hlt]
    · simp [deref, h0, List.getElem?_set, hlt]

theorem deref_set_none_other {hp : Heap} {p q : PatternTermPtr} (h : q ≠ p) :
    deref (hp.set p none) q = deref hp q := by
  have h2 : ¬ p = q := fun e => h e.symm
  simp [deref, List.getElem?_set, h2]


theorem Handle.eq_of_value_eq {x y : Handle} (h : x.value = y.value) : x = y := by
  cases x; cases y; simp_all

theorem Handle.lt_iff (x y : Handle) : x < y ↔ x.value < y.value := Iff.rfl

theorem less_eq_decide {hp : Heap} {a b : PatternTermPtr} {ta tb : PatternTerm}
    (hta : deref hp a = some ta) (htb : deref hp b = some tb) :
    less hp a b = some (decide (Before ta tb)) := by
  simp only [less, hta, htb, PatternTerm.getHandle, PatternTerm.getParent, Before]
  by_cases h1 : ta._handle = tb._handle
  · have h5 : ¬ ta._handle.value < tb._handle.value := by rw [h1]; exact Nat.lt_irrefl _
    by_cases h2 : ta._handle = Handle.UNDEFINED
    · rw [if_pos h1, if_pos h2]
      congr 1
      symm
      rw [decide_eq_false_iff_not]
      rintro (⟨_, h, _⟩ | h)
      · exact h h2
      · exact h5 h
    · rw [if_pos h1, if_neg h2]
      congr 1
      apply decide_eq_decide.mpr
      constructor
      · intro h; exact Or.inl ⟨h1, h2, h⟩
      · rintro (⟨_, _, h⟩ | h)
        · exact h
        · exact absurd h h5
  · have h4 : ta._handle.value ≠ tb._handle.value :=
      fun h => h1 (Handle.eq_of_value_eq h)
    simp [h1, Handle.lt_iff]

theorem less_true_iff {hp : Heap} {a b : PatternTermPtr} {ta tb : PatternTerm}
    (hta : deref hp a = some ta) (htb : deref hp b = some tb) :
    less hp a b = some true ↔ Before ta tb := by
  rw [less_eq_decide hta htb]; simp

theorem less_false_iff {hp : Heap} {a b : PatternTermPtr} {ta tb : PatternTerm}
    (hta : deref hp a = some ta) (htb : deref hp b = some tb) :
    less hp a b = some false ↔ ¬ Before ta tb := by
  rw [less_eq_decide hta htb]; simp

theorem Before.irrefl (t : PatternTerm) : ¬ Before t t := by
  rintro (⟨_, _, h⟩ | h) <;> exact Nat.lt_irrefl _ h

theorem Before.asymm {l r : PatternTerm} (h : Before l r) : ¬ Before r l := by
  unfold Before at *
  rcases h with ⟨h1, _, h3⟩ | h
  · rintro (⟨_, _, h4⟩ | h4)
    · exact Nat.lt_asymm h3 h4
    · rw [h1] at h4; exact Nat.lt_irrefl _ h4
  · rintro (⟨h1, _, _⟩ | h2)
    · rw [h1] at h; exact Nat.lt_irrefl _ h
    · exact Nat.lt_asymm h h2

theorem Before.trans {x y z : PatternTerm} (h1 : Before x y) (h2 : Before y z) :
    Before x z := by
  unfold Before at *
  rcases h1 with ⟨e1, u1, p1⟩ | h1
  · rcases h2 with ⟨e2, _, p2⟩ | h2
    · exact Or.inl ⟨e1.trans e2, u1, Nat.lt_trans p1 p2⟩
    · exact Or.inr (by rw [e1]; exact h2)
  · rcases h2 with ⟨e2, _, _⟩ | h2
    · exact Or.inr (by rw [← e2]; exact h1)
    · exact Or.inr (Nat.lt_trans h1 h2)

/-! ## C1: the ordering is a strict order -/

/-- C1: for all live node references a, b, c the comparison `less` is
irreflexive, asymmetric and transitive. -/
theorem less_strict_order (hp : Heap) (a b c : PatternTermPtr)
    (ha : (deref hp a).isSome) (hb : (deref hp b).isSome)
    (hc : (deref hp c).isSome) :
    less hp a a = some false ∧
    (less hp a b = some true → less hp b a = some false) ∧
    (less hp a b = some true → less hp b c = some true →
      less hp a c = some true) := by
  obtain ⟨ta, hta⟩ := Option.isSome_iff_exists.mp ha
  obtain ⟨tb, htb⟩ := Option.isSome_iff_exists.mp hb
  obtain ⟨tc, htc⟩ := Option.isSome_iff_exists.mp hc
  refine ⟨?_, ?_, ?_⟩
  · exact (less_false_iff hta hta).mpr (Before.irrefl ta)
  · intro h
    exact (less_false_iff htb hta).mpr (Before.asymm ((less_true_iff hta htb).mp h))
  · intro h1 h2
    exact (less_true_iff hta htc).mpr
      (Before.trans ((less_true_iff hta htb).mp h1) ((less_true_iff htb htc).mp h2))

/-- Witness for C1 on the clause `Pair(F(A), F(A))`: the two nodes for A and
the node for Pair. -/
theorem less_strict_order_witness :
    (deref nestedHeap 5).isSome ∧ (deref nestedHeap 6).isSome ∧
    (deref nestedHeap 2).isSome ∧
    less nestedHeap 5 5 = some false ∧
    (less nestedHeap 5 6 = some true → less nestedHeap 6 5 = some false) ∧
    (less nestedHeap 5 6 = some true → less nestedHeap 6 2 = some true →
      less nestedHeap 5 2 = some true) :=
  ⟨by decide, by decide, by decide,
    less_strict_order nestedHeap 5 6 2 (by decide) (by decide) (by decide)⟩

/-! ## C2: equivalence under the ordering and node identity -/

/-- C3, the code at the failing inputs.  In the tree of `Pair(F(A), F(A))`
the two nodes for A (5 and 6) carry the same defined atom and their parents
(3 and 4) are equivalent under the ordering, yet 5 is less than 6: the parents
were compared by address.  In two trees built for the same clause `F(A)` the
roots 2 and 3 are equivalent and the children 4 and 5 have equal atom chains,
yet 4 is less than 5. -/
theorem less_compares_parent_addresses :
    (run init nestedOps = some nestedHeap ∧
      less nestedHeap 3 4 = some false ∧ less nestedHeap 4 3 = some false ∧
      less nestedHeap 5 6 = some true) ∧
    (run init twinOps = some twinHeap ∧
      less twinHeap 2 3 = some false ∧ less twinHeap 3 2 = some false ∧
      less twinHeap 4 5 = some true) := by
  decide

/-! ## Parent chains -/

theorem Ancestor.transfer {hp hp1 : Heap} (h : KeepsParents hp hp1)
    {a n : PatternTermPtr} (ha : Ancestor hp a n) : Ancestor hp1 a n := by
  induction ha with
  | @parent n t hn hl =>
    obtain ⟨t1, ht1, hp1⟩ := h n t hn
    obtain ⟨tp, htp⟩ := Option.isSome_iff_exists.mp hl
    obtain ⟨tp1, htp1, _⟩ := h _ tp htp
    rw [← hp1]
    exact Ancestor.parent ht1 (by rw [hp1, htp1]; rfl)
  | @up a n t hn _ ih =>
    obtain ⟨t1, ht1, hp1⟩ := h n t hn
    exact Ancestor.up ht1 (by rw [hp1]; exact ih)

theorem Ancestor.live_anc {hp : Heap} {a n : PatternTermPtr} (ha : Ancestor hp a n) :
    (deref hp a).isSome := by
  induction ha with
  | parent _ hl => exact hl
  | up _ _ ih => exact ih

theorem Struct.not_ancestor_sentinel {hp : Heap} (hs : Struct hp) (a : PatternTermPtr) :
    ¬ Ancestor hp a PatternTerm.UNDEFINED := by
  obtain ⟨s, hsd, _, hsp⟩ := hs.sent
  intro h
  generalize hn : PatternTerm.UNDEFINED = n at h
  cases h with
  | @parent _ t hd hl =>
    rw [← hn, hsd] at hd
    cases hd
    rw [hsp, deref_nullptr] at hl
    exact absurd hl (by simp)
  | @up _ _ t hd hanc =>
    rw [← hn, hsd] at hd
    cases hd
    rw [hsp] at hanc
    generalize hm : nullptr = m at hanc
    cases hanc with
    | parent hd2 _ => rw [← hm, deref_nullptr] at hd2; cases hd2
    | up hd2 _ => rw [← hm, deref_nullptr] at hd2; cases hd2

theorem Struct.ancestor_lt {hp : Heap} (hs : Struct hp) {a n : PatternTermPtr}
    (ha : Ancestor hp a n) : a < n := by
  induction ha with
  | @parent n t hn hl =>
    by_cases hu : n = PatternTerm.UNDEFINED
    · exfalso
      exact hs.not_ancestor_sentinel _ (hu ▸ Ancestor.parent hn hl)
    · exact (hs.parent n t hn hu).1
  | @up a n t hn hanc ih =>
    by_cases hu : n = PatternTerm.UNDEFINED
    · exfalso
      exact hs.not_ancestor_sentinel _ (hu ▸ Ancestor.up hn hanc)
    · exact Nat.lt_trans ih (hs.parent n t hn hu).1

theorem flagged_ancestors {hp : Heap} (hs : Struct hp)
    (hm : MonoAt hp PatternTerm.UNDEFINED) {a n : PatternTermPtr}
    (ha : Ancestor hp a n) (hf : Flagged hp n) (hne : a ≠ PatternTerm.UNDEFINED) :
    Flagged hp a := by
  induction ha with
  | @parent n t hn hl =>
    obtain ⟨t2, ht2, hflag⟩ := hf
    rw [hn] at ht2
    cases ht2
    rcases hm n t hn hflag with h | h | h
    · exact absurd h hne
    · exact absurd h hne
    · exact h
  | @up a n t hn hanc ih =>
    obtain ⟨t2, ht2, hflag⟩ := hf
    rw [hn] at ht2
    cases ht2
    rcases hm n t hn hflag with h | h | h
    · rw [h] at hanc
      exact absurd hanc (hs.not_ancestor_sentinel _)
    · rw [h] at hanc
      exact absurd hanc (hs.not_ancestor_sentinel _)
    · exact ih h hne

/-! ## The effect of addBoundVariable -/

theorem FlagExt.refl (hp : Heap) (q : PatternTermPtr) : FlagExt hp hp q := by
  refine ⟨rfl, fun _ h => h, ?_⟩
  intro p t ht
  refine ⟨t._has_any_bound_var, ht, fun h => h, ?_⟩
  intro h1 h2
  rw [h1] at h2
  cases h2

theorem FlagExt.keeps_ext {hp hp1 : Heap} {q : PatternTermPtr} (h : FlagExt hp hp1 q) :
    KeepsParents hp hp1 := by
  intro p t ht
  obtain ⟨b, hb, _⟩ := h.2.2 p t ht
  exact ⟨_, hb, rfl⟩

theorem FlagExt.keeps_back {hp hp1 : Heap} {q : PatternTermPtr} (h : FlagExt hp hp1 q) :
    KeepsParents hp1 hp := by
  intro p t1 ht1
  cases hd : deref hp p with
  | none => rw [h.2.1 p hd] at ht1; cases ht1
  | some t =>
    obtain ⟨b, hb, _⟩ := h.2.2 p t hd
    rw [hb] at ht1
    cases ht1
    exact ⟨t, rfl, rfl⟩

theorem FlagExt.flagged_ext {hp hp1 : Heap} {q : PatternTermPtr} (h : FlagExt hp hp1 q)
    {p : PatternTermPtr} (hf : Flagged hp p) : Flagged hp1 p := by
  obtain ⟨t, ht, hflag⟩ := hf
  obtain ⟨b, hb, hmono, _⟩ := h.2.2 p t ht
  exact ⟨_, hb, hmono hflag⟩

theorem addBoundVariable_spec : ∀ (fuel : Nat) (hp : Heap) (q : PatternTermPtr),
    Struct hp → MonoAt hp q → q ≠ PatternTerm.UNDEFINED → (deref hp q).isSome →
    q < fuel →
    ∃ hp1, addBoundVariable fuel hp q = some hp1 ∧ Struct hp1 ∧
      MonoAt hp1 PatternTerm.UNDEFINED ∧ FlagExt hp hp1 q ∧ Flagged hp1 q := by
  intro fuel
  induction fuel with
  | zero => intro hp q _ _ _ _ h; exact absurd h (Nat.not_lt_zero _)
  | succ fuel ih =>
    intro hp q hs hm hq hl hlt
    obtain ⟨t, ht⟩ := Option.isSome_iff_exists.mp hl
    cases hb : t._has_any_bound_var with
    | true =>
      refine ⟨hp, ?_, hs, ?_, FlagExt.refl hp q, ⟨t, ht, hb⟩⟩
      · simp [addBoundVariable, ht, hb]
      · intro n tn hn hfl
        rcases hm n tn hn hfl with h | h | h
        · exact Or.inl h
        · exact Or.inr (Or.inr (h ▸ ⟨t, ht, hb⟩))
        · exact Or.inr (Or.inr h)
    | false =>
      obtain ⟨hq0, hqlt⟩ := deref_bound ht
      have hsame : deref (store hp q { t with _has_any_bound_var := true }) q =
          some { t with _has_any_bound_var := true } := deref_store_same _ hq0 hqlt
      have hother : ∀ p, p ≠ q →
          deref (store hp q { t with _has_any_bound_var := true }) p = deref hp p :=
        fun p hpq => deref_store_other _ hpq
      have hres : addBoundVariable (fuel + 1) hp q =
          if t._parent ≠ PatternTerm.UNDEFINED then
            addBoundVariable fuel (store hp q { t with _has_any_bound_var := true })
              t._parent
          else some (store hp q { t with _has_any_bound_var := true }) := by
        rw [addBoundVariable]
        simp only [ht, hb, Bool.not_false, if_true]
      have hlen : (store hp q { t with _has_any_bound_var := true }).length = hp.length :=
        length_store _ _ _
      generalize store hp q { t with _has_any_bound_var := true } = hp1
        at hsame hother hres hlen
      have hkeep : ∀ p tp, deref hp p = some tp → (deref hp1 p).isSome := by
        intro p tp hp_
        by_cases hpq : p = q
        · rw [hpq, hsame]; rfl
        · rw [hother p hpq, hp_]; rfl
      have hflag1 : ∀ p, Flagged hp p → Flagged hp1 p := by
        rintro p ⟨tp, htp, hfl⟩
        by_cases hpq : p = q
        · exact ⟨{ t with _has_any_bound_var := true }, by rw [hpq]; exact hsame, rfl⟩
        · exact ⟨tp, by rw [hother p hpq, htp], hfl⟩
      have hs1 : Struct hp1 := by
        constructor
        · rw [hother _ (Ne.symm hq)]; exact hs.sent
        · intro n tn hn hne
          by_cases hnq : n = q
          · rw [hnq, hsame] at hn
            cases hn
            obtain ⟨h1, h2⟩ := hs.parent q t ht hq
            obtain ⟨tp, htp⟩ := Option.isSome_iff_exists.mp h2
            exact ⟨hnq ▸ h1, hkeep _ tp htp⟩
          · rw [hother n hnq] at hn
            obtain ⟨h1, h2⟩ := hs.parent n tn hn hne
            obtain ⟨tp, htp⟩ := Option.isSome_iff_exists.mp h2
            exact ⟨h1, hkeep _ tp htp⟩
      have hm1 : MonoAt hp1 t._parent := by
        intro n tn hn hfl
        by_cases hnq : n = q
        · rw [hnq, hsame] at hn
          cases hn
          exact Or.inr (Or.inl rfl)
        · rw [hother n hnq] at hn
          rcases hm n tn hn hfl with h | h | h
          · exact Or.inl h
          · exact Or.inr (Or.inr (h ▸ ⟨_, hsame, rfl⟩))
          · exact Or.inr (Or.inr (hflag1 _ h))
      have hext1 : FlagExt hp hp1 q := by
        refine ⟨hlen, ?_, ?_⟩
        · intro p hpn
          have hpq : p ≠ q := by
            intro e; rw [e, ht] at hpn; cases hpn
          rw [hother p hpq, hpn]
        · intro p tp htp
          by_cases hpq : p = q
          · rw [hpq, ht] at htp
            cases htp
            exact ⟨true, hpq ▸ hsame, fun _ => rfl, fun _ _ => Or.inl hpq⟩
          · refine ⟨tp._has_any_bound_var, by rw [hother p hpq, htp], fun h => h, ?_⟩
            intro h1 h2
            rw [h1] at h2
            cases h2
      by_cases hpar : t._parent = PatternTerm.UNDEFINED
      · refine ⟨hp1, ?_, hs1, ?_, hext1, ⟨_, hsame, rfl⟩⟩
        · rw [hres, if_neg (not_not.mpr hpar)]
        · intro n tn hn hfl
          rcases hm1 n tn hn hfl with h | h | h
          · exact Or.inl h
          · exact Or.inl (h.trans hpar)
          · exact Or.inr (Or.inr h)
      · obtain ⟨hplt, hplive⟩ := hs.parent q t ht hq
        obtain ⟨tp, htp⟩ := Option.isSome_iff_exists.mp hplive
        obtain ⟨hp2, hrun, hs2, hm2, hext2, _⟩ :=
          ih hp1 t._parent hs1 hm1 hpar (hkeep _ tp htp)
            (Nat.lt_of_lt_of_le hplt (Nat.le_of_lt_succ hlt))
        refine ⟨hp2, ?_, hs2, hm2, ?_, ?_⟩
        · rw [hres, if_pos hpar]; exact hrun
        · refine ⟨hext2.1.trans hlen, ?_, ?_⟩
          · intro p hpn
            exact hext2.2.1 p (hext1.2.1 p hpn)
          · intro p tq htq
            obtain ⟨b1, hb1, hmono1, hnew1⟩ := hext1.2.2 p tq htq
            obtain ⟨b2, hb2, hmono2, hnew2⟩ := hext2.2.2 p _ hb1
            refine ⟨b2, hb2, fun h => hmono2 (hmono1 h), ?_⟩
            intro hb2t hold
            cases hb1v : b1 with
            | true => exact hnew1 hb1v hold
            | false =>
              rcases hnew2 hb2t hb1v with h | h
              · exact Or.inr (h ▸ Ancestor.parent ht hplive)
              · exact Or.inr (Ancestor.up ht (Ancestor.transfer hext1.keeps_back h))
        · exact hext2.flagged_ext ⟨_, hsame, rfl⟩

/-! ## Steps that keep parents and marks -/

theorem Agree.symm {hp hp1 : Heap} (h : Agree hp hp1) : Agree hp1 hp :=
  fun p => (h p).symm

theorem Agree.some {hp hp1 : Heap} (h : Agree hp hp1) {p : PatternTermPtr}
    {t : PatternTerm} (ht : deref hp p = some t) :
    ∃ t1, deref hp1 p = some t1 ∧ t1._parent = t._parent ∧
      t1._has_any_bound_var = t._has_any_bound_var := by
  have h1 := h p
  rw [ht] at h1
  cases hd : deref hp1 p with
  | none => rw [hd] at h1; cases h1
  | some t1 =>
    rw [hd] at h1
    simp only [Option.map_some', Option.some.injEq, Prod.mk.injEq] at h1
    exact ⟨t1, rfl, h1.1, h1.2⟩

theorem Agree.keeps_agree {hp hp1 : Heap} (h : Agree hp hp1) : KeepsParents hp hp1 := by
  intro p t ht
  obtain ⟨t1, h1, h2, _⟩ := h.some ht
  exact ⟨t1, h1, h2⟩

theorem Agree.live_agree {hp hp1 : Heap} (h : Agree hp hp1) {p : PatternTermPtr}
    (hl : (deref hp p).isSome) : (deref hp1 p).isSome := by
  obtain ⟨t, ht⟩ := Option.isSome_iff_exists.mp hl
  obtain ⟨t1, h1, _⟩ := h.some ht
  rw [h1]; rfl

theorem Agree.flagged_agree {hp hp1 : Heap} (h : Agree hp hp1) {p : PatternTermPtr}
    (hf : Flagged hp p) : Flagged hp1 p := by
  obtain ⟨t, ht, hfl⟩ := hf
  obtain ⟨t1, h1, _, h3⟩ := h.some ht
  exact ⟨t1, h1, h3.trans hfl⟩

theorem Agree.struct {hp hp1 : Heap} (h : Agree hp hp1) (hs : Struct hp) : Struct hp1 := by
  constructor
  · obtain ⟨s, hsd, hsf, hsp⟩ := hs.sent
    obtain ⟨s1, h1, h2, h3⟩ := h.some hsd
    exact ⟨s1, h1, h3.trans hsf, h2.trans hsp⟩
  · intro n t1 hn hne
    obtain ⟨t, ht, h2, _⟩ := h.symm.some hn
    obtain ⟨hlt, hl⟩ := hs.parent n t ht hne
    rw [h2] at hlt hl
    exact ⟨hlt, h.live_agree hl⟩

theorem Agree.mono {hp hp1 : Heap} (h : Agree hp hp1) {q : PatternTermPtr}
    (hm : MonoAt hp q) : MonoAt hp1 q := by
  intro n t1 hn hfl
  obtain ⟨t, ht, h2, h3⟩ := h.symm.some hn
  rcases hm n t ht (h3.trans hfl) with h4 | h4 | h4
  · exact Or.inl (h2.symm.trans h4)
  · exact Or.inr (Or.inl (h2.symm.trans h4))
  · exact Or.inr (Or.inr (by rw [← h2]; exact h.flagged_agree h4))

theorem store_agree {hp : Heap} {p : PatternTermPtr} {t t1 : PatternTerm}
    (ht : deref hp p = some t) (hpar : t1._parent = t._parent)
    (hfl : t1._has_any_bound_var = t._has_any_bound_var) : Agree hp (store hp p t1) := by
  intro q
  by_cases hq : q = p
  · obtain ⟨h0, hlt⟩ := deref_bound ht
    rw [hq, deref_store_same t1 h0 hlt, ht]
    simp [hpar, hfl]
  · rw [deref_store_other t1 hq]

theorem addOutgoingTerm_agree {hp hp1 : Heap} {this ptm : PatternTermPtr}
    (h : addOutgoingTerm hp this ptm = some hp1) : Agree hp hp1 := by
  unfold addOutgoingTerm at h
  cases hd : deref hp this with
  | none => simp [hd] at h
  | some t =>
    simp only [hd, Option.some.injEq] at h
    rw [← h]
    exact store_agree hd rfl rfl

theorem addQuote_agree {hp hp1 : Heap} {this : PatternTermPtr}
    (h : addQuote hp this = some hp1) : Agree hp hp1 := by
  unfold addQuote at h
  cases hd : deref hp this with
  | none => simp [hd] at h
  | some t =>
    simp only [hd, Option.some.injEq] at h
    rw [← h]
    exact store_agree hd rfl rfl

theorem remQuote_agree {hp hp1 : Heap} {this : PatternTermPtr}
    (h : remQuote hp this = some hp1) : Agree hp hp1 := by
  unfold remQuote at h
  cases hd : deref hp this with
  | none => simp [hd] at h
  | some t =>
    simp only [hd, Option.some.injEq] at h
    rw [← h]
    exact store_agree hd rfl rfl

/-! ## Steps that build a node -/

theorem Struct.length_ge {hp : Heap} (hs : Struct hp) : 2 ≤ hp.length := by
  obtain ⟨s, hsd, _⟩ := hs.sent
  exact (deref_bound hsd).2

theorem alloc_keeps (hp : Heap) (c : Option PatternTerm) : KeepsParents hp (hp ++ [c]) := by
  intro p t ht
  exact ⟨t, by rw [deref_append_old c (deref_bound ht).2, ht], rfl⟩

theorem alloc_flagged {hp : Heap} (c : Option PatternTerm) {p : PatternTermPtr}
    (hf : Flagged hp p) : Flagged (hp ++ [c]) p := by
  obtain ⟨t, ht, hfl⟩ := hf
  exact ⟨t, by rw [deref_append_old c (deref_bound ht).2, ht], hfl⟩

theorem alloc_cases {hp : Heap} {t tn : PatternTerm} {n : PatternTermPtr}
    (hs : Struct hp) (hn : deref (hp ++ [some t]) n = some tn) :
    (n < hp.length ∧ deref hp n = some tn) ∨ (n = hp.length ∧ tn = t) := by
  rcases Nat.lt_or_eq_of_le (deref_append_bound hn) with h | h
  · rw [deref_append_old _ h] at hn
    exact Or.inl ⟨h, hn⟩
  · have h2 : hp.length ≠ 0 := by have := hs.length_ge; omega
    rw [h, deref_append_new t h2] at hn
    cases hn
    exact Or.inr ⟨h, rfl⟩

theorem alloc_struct {hp : Heap} {t : PatternTerm} (hs : Struct hp)
    (hl : (deref hp t._parent).isSome) : Struct (hp ++ [some t]) := by
  have keep := alloc_keeps hp (some t)
  constructor
  · obtain ⟨s, hsd, hsf, hsp⟩ := hs.sent
    obtain ⟨s1, h1, _⟩ := keep _ s hsd
    have : s1 = s := by
      rw [deref_append_old _ (deref_bound hsd).2, hsd] at h1
      exact (Option.some.inj h1).symm
    exact ⟨s, this ▸ h1, hsf, hsp⟩
  · intro n tn hn hne
    have live : ∀ p, (deref hp p).isSome → (deref (hp ++ [some t]) p).isSome := by
      intro p hpl
      obtain ⟨tp, htp⟩ := Option.isSome_iff_exists.mp hpl
      obtain ⟨t1, h1, _⟩ := keep p tp htp
      rw [h1]; rfl
    rcases alloc_cases hs hn with ⟨_, h⟩ | ⟨h1, h2⟩
    · obtain ⟨h3, h4⟩ := hs.parent n tn h hne
      exact ⟨h3, live _ h4⟩
    · obtain ⟨tp, htp⟩ := Option.isSome_iff_exists.mp hl
      rw [h2, h1]
      exact ⟨(deref_bound htp).2, live _ hl⟩

theorem alloc_mono {hp : Heap} {t : PatternTerm} (hs : Struct hp)
    (hm : MonoAt hp PatternTerm.UNDEFINED) (hfl : t._has_any_bound_var = false) :
    MonoAt (hp ++ [some t]) PatternTerm.UNDEFINED := by
  intro n tn hn hflag
  rcases alloc_cases hs hn with ⟨_, h⟩ | ⟨_, h2⟩
  · rcases hm n tn h hflag with h4 | h4 | h4
    · exact Or.inl h4
    · exact Or.inl h4
    · exact Or.inr (Or.inr (alloc_flagged _ h4))
  · rw [h2, hfl] at hflag
    cases hflag

/-! ## Destroying a node, and the sentinel -/

theorem unowned_parent {hp : Heap} {p n : PatternTermPtr} {t : PatternTerm}
    (hu : unowned hp p = true) (hn : deref hp n = some t) : t._parent ≠ p := by
  have hmem : some t ∈ hp := by
    unfold deref at hn
    by_cases h0 : n = nullptr
    · simp [h0] at hn
    · simp only [h0, if_false] at hn
      cases hg : hp.get? n with
      | none => rw [hg] at hn; cases hn
      | some c =>
        rw [hg] at hn
        simp only [Option.join] at hn
        have : c = some t := hn
        rw [this] at hg
        exact List.get?_mem hg
  unfold unowned at hu
  have := (List.all_eq_true.mp hu) (some t) hmem
  simpa using this

theorem release_effect {hp hp1 : Heap} {p : PatternTermPtr} (h : release hp p = some hp1) :
    p ≠ PatternTerm.UNDEFINED ∧ unowned hp p = true ∧ deref hp1 p = none ∧
      ∀ q, q ≠ p → deref hp1 q = deref hp q := by
  unfold release at h
  split at h
  · rename_i hc
    cases h
    exact ⟨hc.1, hc.2.2, deref_set_none_same hp p, fun q hq => deref_set_none_other hq⟩
  · cases h

theorem release_struct {hp hp1 : Heap} {p : PatternTermPtr} (hs : Struct hp)
    (h : release hp p = some hp1) : Struct hp1 := by
  obtain ⟨hne, hu, hgone, hrest⟩ := release_effect h
  constructor
  · rw [hrest _ (Ne.symm hne)]; exact hs.sent
  · intro n t hn hnu
    have hnp : n ≠ p := by
      intro e; rw [e, hgone] at hn; cases hn
    rw [hrest n hnp] at hn
    obtain ⟨h1, h2⟩ := hs.parent n t hn hnu
    exact ⟨h1, by rw [hrest _ (unowned_parent hu hn)]; exact h2⟩

theorem release_mono {hp hp1 : Heap} {p : PatternTermPtr}
    (hm : MonoAt hp PatternTerm.UNDEFINED) (h : release hp p = some hp1) :
    MonoAt hp1 PatternTerm.UNDEFINED := by
  obtain ⟨_, hu, hgone, hrest⟩ := release_effect h
  intro n t hn hfl
  have hnp : n ≠ p := by
    intro e; rw [e, hgone] at hn; cases hn
  rw [hrest n hnp] at hn
  rcases hm n t hn hfl with h4 | h4 | ⟨tp, htp, hf⟩
  · exact Or.inl h4
  · exact Or.inl h4
  · exact Or.inr (Or.inr ⟨tp, by rw [hrest _ (unowned_parent hu hn)]; exact htp, hf⟩)

theorem addBoundVariable_sentinel {hp : Heap} (hs : Struct hp) (fuel : Nat) :
    addBoundVariable fuel hp PatternTerm.UNDEFINED = none := by
  obtain ⟨s, hsd, hsf, hsp⟩ := hs.sent
  cases fuel with
  | zero => rfl
  | succ f =>
    rw [addBoundVariable]
    have hne : nullptr ≠ PatternTerm.UNDEFINED := by decide
    simp only [hsd, hsf, hsp, Bool.not_false, if_true, hne, ne_eq, not_false_eq_true]
    cases f with
    | zero => rfl
    | succ g => rw [addBoundVariable, deref_nullptr]

theorem deref_init {n : PatternTermPtr} {t : PatternTerm} (h : deref init n = some t) :
    n = PatternTerm.UNDEFINED ∧ t = sentinel := by
  have hb := (deref_bound h).2
  have h0 := (deref_bound h).1
  have h2 : n < 2 := hb
  have h3 : n ≠ 0 := h0
  have h1 : n = 1 := Nat.le_antisymm (Nat.le_of_lt_succ h2) (Nat.pos_of_ne_zero h3)
  subst h1
  have : deref init 1 = some sentinel := by decide
  rw [this] at h
  exact ⟨rfl, (Option.some.inj h).symm⟩

theorem init_struct : Struct init := by
  constructor
  · exact ⟨sentinel, by decide, rfl, rfl⟩
  · intro n t hn hne
    exact absurd (deref_init hn).1 hne

theorem init_mono : MonoAt init PatternTerm.UNDEFINED := by
  intro n t hn hfl
  rw [(deref_init hn).2] at hfl
  cases hfl

/-! ## Every step keeps the structure -/

theorem new_effect {hp : Heap} {parent : PatternTermPtr} {h : Handle} {t : PatternTerm}
    (hnew : PatternTerm.new hp parent h = some t) :
    ∃ tp, deref hp parent = some tp ∧
      t = ⟨h, parent, [], tp._quote_depth, false⟩ := by
  unfold PatternTerm.new at hnew
  cases hd : deref hp parent with
  | none => simp [hd] at hnew
  | some tp =>
    simp only [hd, Option.some.injEq] at hnew
    exact ⟨tp, rfl, hnew.symm⟩

theorem step_struct {hp hp1 : Heap} {op : Op} (hs : Struct hp)
    (hm : MonoAt hp PatternTerm.UNDEFINED) (h : step hp op = some hp1) :
    Struct hp1 ∧ MonoAt hp1 PatternTerm.UNDEFINED := by
  cases op with
  | mkRoot =>
    simp only [step, make_shared, Option.some.injEq] at h
    rw [← h]
    obtain ⟨s, hsd, _⟩ := hs.sent
    exact ⟨alloc_struct hs (by show (deref hp PatternTerm.UNDEFINED).isSome; rw [hsd]; rfl),
      alloc_mono hs hm rfl⟩
  | mkChild parent hd =>
    simp only [step] at h
    cases hnew : PatternTerm.new hp parent hd with
    | none => rw [hnew] at h; cases h
    | some t =>
      rw [hnew] at h
      simp only [make_shared, Option.some.injEq] at h
      obtain ⟨tp, htp, ht⟩ := new_effect hnew
      rw [← h]
      exact ⟨alloc_struct hs (by rw [ht]; show (deref hp parent).isSome; rw [htp]; rfl),
        alloc_mono hs hm (by rw [ht])⟩
  | addOutgoingTerm this ptm =>
    simp only [step] at h
    split at h
    · exact ⟨(addOutgoingTerm_agree h).struct hs, (addOutgoingTerm_agree h).mono hm⟩
    · cases h
  | addQuote this =>
    exact ⟨(addQuote_agree h).struct hs, (addQuote_agree h).mono hm⟩
  | remQuote this =>
    exact ⟨(remQuote_agree h).struct hs, (remQuote_agree h).mono hm⟩
  | addBoundVariable this =>
    simp only [step] at h
    by_cases hu : this = PatternTerm.UNDEFINED
    · rw [hu, addBoundVariable_sentinel hs] at h; cases h
    · cases hd : deref hp this with
      | none =>
        have hlen := hs.length_ge
        obtain ⟨k, hk⟩ : ∃ k, hp.length = k + 1 := ⟨hp.length - 1, by omega⟩
        rw [hk, addBoundVariable, hd] at h
        cases h
      | some t =>
        have hm2 : MonoAt hp this := by
          intro n tn hn hfl
          rcases hm n tn hn hfl with h4 | h4 | h4
          · exact Or.inl h4
          · exact Or.inl h4
          · exact Or.inr (Or.inr h4)
        obtain ⟨hp2, hrun, hs2, hmo2, _, _⟩ :=
          addBoundVariable_spec hp.length hp this hs hm2 hu (by rw [hd]; rfl)
            (deref_bound hd).2
        rw [hrun] at h
        cases h
        exact ⟨hs2, hmo2⟩
  | release p =>
    exact ⟨release_struct hs h, release_mono hm h⟩

theorem run_struct : ∀ (ops : List Op) (hp hp1 : Heap), Struct hp →
    MonoAt hp PatternTerm.UNDEFINED → run hp ops = some hp1 →
    Struct hp1 ∧ MonoAt hp1 PatternTerm.UNDEFINED := by
  intro ops
  induction ops with
  | nil =>
    intro hp hp1 hs hm h
    simp only [run, Option.some.injEq] at h
    rw [← h]; exact ⟨hs, hm⟩
  | cons op ops ih =>
    intro hp hp1 hs hm h
    simp only [run] at h
    cases hst : step hp op with
    | none => rw [hst] at h; cases h
    | some hp2 =>
      rw [hst] at h
      obtain ⟨hs2, hm2⟩ := step_struct hs hm hst
      exact ih hp2 hp1 hs2 hm2 h

/-! ## C4: bound-variable marks are monotone upward -/

/-- C4: in every heap reached from the initial one by the steps (building
nodes, addOutgoingTerm, addBoundVariable, and also addQuote, remQuote and
destroying nodes), every ancestor other than the sentinel of a marked node is
marked; and addBoundVariable called on a live node other than the sentinel
returns, marks that node, and leaves a heap with the same property. -/
theorem bound_var_monotone_upward (ops : List Op) (hp : Heap)
    (hrun : run init ops = some hp) :
    (∀ n a, Flagged hp n → Ancestor hp a n → a ≠ PatternTerm.UNDEFINED →
      Flagged hp a) ∧
    (∀ n, n ≠ PatternTerm.UNDEFINED → (deref hp n).isSome →
      ∃ hp1, step hp (Op.addBoundVariable n) = some hp1 ∧ Flagged hp1 n ∧
        ∀ m a, Flagged hp1 m → Ancestor hp1 a m → a ≠ PatternTerm.UNDEFINED →
          Flagged hp1 a) := by
  obtain ⟨hs, hm⟩ := run_struct ops init hp init_struct init_mono hrun
  refine ⟨fun n a hf ha hne => flagged_ancestors hs hm ha hf hne, ?_⟩
  intro n hne hl
  obtain ⟨t, ht⟩ := Option.isSome_iff_exists.mp hl
  have hm2 : MonoAt hp n := by
    intro k tk hk hfl
    rcases hm k tk hk hfl with h4 | h4 | h4
    · exact Or.inl h4
    · exact Or.inl h4
    · exact Or.inr (Or.inr h4)
  obtain ⟨hp1, hres, hs1, hm1, _, hf1⟩ :=
    addBoundVariable_spec hp.length hp n hs hm2 hne hl (deref_bound ht).2
  exact ⟨hp1, hres, hf1, fun m a hf ha hna => flagged_ancestors hs1 hm1 ha hf hna⟩

/-- Witness for C4 on scenario S1: the second V_a node (5) is marked, Set (2)
is an ancestor of it, and Set is marked. -/
theorem bound_var_monotone_upward_witness :
    run init s1Ops = some s1Heap ∧ Flagged s1Heap 2 :=
  ⟨by decide,
    (bound_var_monotone_upward s1Ops s1Heap (by decide)).1 5 2
      ⟨⟨⟨21⟩, 4, [], 0, true⟩, by decide, rfl⟩
      (Ancestor.up (t := ⟨⟨21⟩, 4, [], 0, true⟩) (by decide)
        (Ancestor.parent (t := ⟨⟨11⟩, 2, [5, 6], 0, true⟩) (by decide) (by decide)))
      (by decide)⟩

/-! ## Completeness of the marks -/

theorem step_kind {hp hp1 : Heap} {op : Op} (hs : Struct hp)
    (hnr : op.isRelease = false) (h : step hp op = some hp1) : StepKind hp hp1 op := by
  cases op with
  | mkRoot =>
    simp only [step, make_shared, Option.some.injEq] at h
    obtain ⟨s, hsd, _⟩ := hs.sent
    exact StepKind.alloc _ h.symm
      (by show (deref hp PatternTerm.UNDEFINED).isSome; rw [hsd]; rfl) rfl
      (fun q e => Op.noConfusion e)
  | mkChild parent hd =>
    simp only [step] at h
    cases hnew : PatternTerm.new hp parent hd with
    | none => rw [hnew] at h; cases h
    | some t =>
      rw [hnew] at h
      simp only [make_shared, Option.some.injEq] at h
      obtain ⟨tp, htp, ht⟩ := new_effect hnew
      exact StepKind.alloc t h.symm
        (by rw [ht]; show (deref hp parent).isSome; rw [htp]; rfl) (by rw [ht])
        (fun q e => Op.noConfusion e)
  | addOutgoingTerm this ptm =>
    simp only [step] at h
    split at h
    · exact StepKind.agree (addOutgoingTerm_agree h) (fun q e => Op.noConfusion e)
    · cases h
  | addQuote this =>
    exact StepKind.agree (addQuote_agree h) (fun q e => Op.noConfusion e)
  | remQuote this =>
    exact StepKind.agree (remQuote_agree h) (fun q e => Op.noConfusion e)
  | addBoundVariable this =>
    simp only [step] at h
    by_cases hu : this = PatternTerm.UNDEFINED
    · rw [hu, addBoundVariable_sentinel hs] at h; cases h
    · cases hd : deref hp this with
      | none =>
        have hlen := hs.length_ge
        obtain ⟨k, hk⟩ : ∃ k, hp.length = k + 1 := ⟨hp.length - 1, by omega⟩
        rw [hk, addBoundVariable, hd] at h
        cases h
      | some t => exact StepKind.mark this rfl hu (by rw [hd]; rfl) h
  | release p => cases hnr

theorem alloc_ancestor_back {hp : Heap} {c : Option PatternTerm}
    (hs1 : Struct (hp ++ [c])) {a n : PatternTermPtr}
    (ha : Ancestor (hp ++ [c]) a n) (hn : n < hp.length) : Ancestor hp a n := by
  induction ha with
  | @parent n t hd hl =>
    have hlt : t._parent < n := hs1.ancestor_lt (Ancestor.parent hd hl)
    rw [deref_append_old c hn] at hd
    rw [deref_append_old c (Nat.lt_trans hlt hn)] at hl
    exact Ancestor.parent hd hl
  | @up a n t hd hanc ih =>
    have hne : n ≠ PatternTerm.UNDEFINED := by
      intro e
      exact hs1.not_ancestor_sentinel a (e ▸ Ancestor.up hd hanc)
    have hlt : t._parent < n := (hs1.parent n t hd hne).1
    rw [deref_append_old c hn] at hd
    exact Ancestor.up hd (ih (Nat.lt_trans hlt hn))

theorem mark_mem_snoc {H : List Op} {op : Op} (hop : ∀ q, op ≠ Op.addBoundVariable q)
    (m : PatternTermPtr) : Op.addBoundVariable m ∈ H ++ [op] ↔ Op.addBoundVariable m ∈ H := by
  rw [List.mem_append, List.mem_singleton]
  constructor
  · rintro (h | h)
    · exact h
    · exact absurd h.symm (hop m)
  · exact Or.inl

theorem step_complete {H : List Op} {hp hp1 : Heap} {op : Op} (hs : Struct hp)
    (hm : MonoAt hp PatternTerm.UNDEFINED) (hc : Complete H hp) (hlm : LiveMarks H hp)
    (hnr : op.isRelease = false) (h : step hp op = some hp1) :
    Complete (H ++ [op]) hp1 ∧ LiveMarks (H ++ [op]) hp1 := by
  obtain ⟨hs1, hm1⟩ := step_struct hs hm h
  cases step_kind hs hnr h with
  | agree hag hop =>
    constructor
    · intro n t1 hn hne
      obtain ⟨t, ht, _, hfl⟩ := hag.symm.some hn
      rw [← hfl, hc n t ht hne]
      constructor
      · rintro ⟨m, hmem, hrel⟩
        refine ⟨m, (mark_mem_snoc hop m).mpr hmem, ?_⟩
        rcases hrel with e | ha
        · exact Or.inl e
        · exact Or.inr (ha.transfer hag.keeps_agree)
      · rintro ⟨m, hmem, hrel⟩
        refine ⟨m, (mark_mem_snoc hop m).mp hmem, ?_⟩
        rcases hrel with e | ha
        · exact Or.inl e
        · exact Or.inr (ha.transfer hag.symm.keeps_agree)
    · intro m hmem
      exact hag.live_agree (hlm m ((mark_mem_snoc hop m).mp hmem))
  | alloc t he hl hfl hop =>
    subst he
    constructor
    · intro n tn hn hne
      rcases alloc_cases hs hn with ⟨hlt, hd⟩ | ⟨hnew, htn⟩
      · rw [hc n tn hd hne]
        constructor
        · rintro ⟨m, hmem, hrel⟩
          refine ⟨m, (mark_mem_snoc hop m).mpr hmem, ?_⟩
          rcases hrel with e | ha
          · exact Or.inl e
          · exact Or.inr (ha.transfer (alloc_keeps hp _))
        · rintro ⟨m, hmem, hrel⟩
          have hmem2 := (mark_mem_snoc hop m).mp hmem
          refine ⟨m, hmem2, ?_⟩
          rcases hrel with e | ha
          · exact Or.inl e
          · obtain ⟨tm, htm⟩ := Option.isSome_iff_exists.mp (hlm m hmem2)
            exact Or.inr (alloc_ancestor_back hs1 ha (deref_bound htm).2)
      · rw [htn, hfl]
        constructor
        · intro e; cases e
        · rintro ⟨m, hmem, hrel⟩
          exfalso
          have hmem2 := (mark_mem_snoc hop m).mp hmem
          obtain ⟨tm, htm⟩ := Option.isSome_iff_exists.mp (hlm m hmem2)
          have hmlt : m < hp.length := (deref_bound htm).2
          rcases hrel with e | ha
          · rw [e, hnew] at hmlt; exact Nat.lt_irrefl _ hmlt
          · have := hs1.ancestor_lt ha
            rw [hnew] at this
            exact Nat.lt_irrefl _ (Nat.lt_trans this hmlt)
    · intro m hmem
      obtain ⟨tm, htm⟩ :=
        Option.isSome_iff_exists.mp (hlm m ((mark_mem_snoc hop m).mp hmem))
      obtain ⟨t1, h1, _⟩ := alloc_keeps hp (some t) m tm htm
      rw [h1]; rfl
  | mark q hop hq hl hres =>
    subst hop
    obtain ⟨tq, htq⟩ := Option.isSome_iff_exists.mp hl
    have hm2 : MonoAt hp q := by
      intro k tk hk hfl
      rcases hm k tk hk hfl with h4 | h4 | h4
      · exact Or.inl h4
      · exact Or.inl h4
      · exact Or.inr (Or.inr h4)
    obtain ⟨hp2, hres2, _, _, hext, hfq⟩ :=
      addBoundVariable_spec hp.length hp q hs hm2 hq hl (deref_bound htq).2
    rw [hres] at hres2
    cases hres2
    constructor
    · intro n t1 hn hne
      obtain ⟨t, ht, _⟩ := hext.keeps_back n t1 hn
      obtain ⟨b, hb, hmono, hnew⟩ := hext.2.2 n t ht
      rw [hn] at hb
      cases hb
      constructor
      · intro hflag
        have hbt : b = true := hflag
        cases hold : t._has_any_bound_var with
        | true =>
          obtain ⟨m, hmem, hrel⟩ := (hc n t ht hne).mp hold
          refine ⟨m, List.mem_append_left _ hmem, ?_⟩
          rcases hrel with e | ha
          · exact Or.inl e
          · exact Or.inr (ha.transfer hext.keeps_ext)
        | false =>
          refine ⟨q, List.mem_append_right _ (List.mem_singleton.mpr rfl), ?_⟩
          rcases hnew hbt hold with e | ha
          · exact Or.inl e.symm
          · exact Or.inr (ha.transfer hext.keeps_ext)
      · rintro ⟨m, hmem, hrel⟩
        show b = true
        rcases List.mem_append.mp hmem with hmem1 | hmem1
        · refine hmono ((hc n t ht hne).mpr ⟨m, hmem1, ?_⟩)
          rcases hrel with e | ha
          · exact Or.inl e
          · exact Or.inr (ha.transfer hext.keeps_back)
        · have hmq : m = q := by
            have := List.mem_singleton.mp hmem1
            cases this
            rfl
          subst hmq
          have hfn : Flagged hp1 n := by
            rcases hrel with e | ha
            · exact e ▸ hfq
            · exact flagged_ancestors hs1 hm1 ha hfq hne
          obtain ⟨t2, ht2, hf2⟩ := hfn
          rw [hn] at ht2
          cases ht2
          exact hf2
    · intro m hmem
      rcases List.mem_append.mp hmem with hmem1 | hmem1
      · obtain ⟨tm, htm⟩ := Option.isSome_iff_exists.mp (hlm m hmem1)
        obtain ⟨t1, h1, _⟩ := hext.keeps_ext m tm htm
        rw [h1]; rfl
      · have hmq : m = q := by
          have := List.mem_singleton.mp hmem1
          cases this
          rfl
        obtain ⟨t2, ht2, _⟩ := hfq
        rw [hmq, ht2]; rfl

theorem run_complete : ∀ (ops H : List Op) (hp hp1 : Heap), Struct hp →
    MonoAt hp PatternTerm.UNDEFINED → Complete H hp → LiveMarks H hp →
    (∀ op ∈ ops, op.isRelease = false) → run hp ops = some hp1 →
    Complete (H ++ ops) hp1 := by
  intro ops
  induction ops with
  | nil =>
    intro H hp hp1 _ _ hc _ _ h
    simp only [run, Option.some.injEq] at h
    rw [← h, List.append_nil]; exact hc
  | cons op ops ih =>
    intro H hp hp1 hs hm hc hlm hnr h
    simp only [run] at h
    cases hst : step hp op with
    | none => rw [hst] at h; cases h
    | some hp2 =>
      rw [hst] at h
      obtain ⟨hs2, hm2⟩ := step_struct hs hm hst
      obtain ⟨hc2, hlm2⟩ :=
        step_complete hs hm hc hlm (hnr op (List.mem_cons_self _ _)) hst
      have := ih (H ++ [op]) hp2 hp1 hs2 hm2 hc2 hlm2
        (fun o ho => hnr o (List.mem_cons_of_mem _ ho)) h
      rw [List.append_assoc] at this
      exact this

theorem init_complete : Complete [] init := by
  intro n t hn hne
  exact absurd (deref_init hn).1 hne

/-! ## C5: completeness of the bound-variable marks -/

/-- C5: in every heap reached from the initial one by steps that destroy
nothing, a node other than the sentinel reports `hasAnyBoundVariable() ==
false` if and only if addBoundVariable has been called on no node of its
subtree (the node itself or a node that has it on its parent chain). -/
theorem bound_var_complete (ops : List Op) (hp : Heap)
    (hrun : run init ops = some hp) (hnr : ∀ op ∈ ops, op.isRelease = false)
    (n : PatternTermPtr) (t : PatternTerm) (hn : deref hp n = some t)
    (hne : n ≠ PatternTerm.UNDEFINED) :
    t.hasAnyBoundVariable = false ↔
      ¬ ∃ m, Op.addBoundVariable m ∈ ops ∧ (m = n ∨ Ancestor hp n m) := by
  have hc := run_complete ops [] init hp init_struct init_mono init_complete
    (fun m hm => absurd hm (List.not_mem_nil _)) hnr hrun
  rw [List.nil_append] at hc
  rw [← hc n t hn hne]
  show t._has_any_bound_var = false ↔ ¬ t._has_any_bound_var = true
  cases t._has_any_bound_var <;> simp

/-- Witness for C5 on scenario S1: Set (2) is marked, so addBoundVariable was
called on a node of its subtree. -/
theorem bound_var_complete_witness :
    run init s1Ops = some s1Heap ∧ (∀ op ∈ s1Ops, op.isRelease = false) ∧
    deref s1Heap 2 = some ⟨⟨10⟩, 1, [3, 4], 0, true⟩ ∧
    (2 : PatternTermPtr) ≠ PatternTerm.UNDEFINED ∧
    ∃ m, Op.addBoundVariable m ∈ s1Ops ∧ (m = 2 ∨ Ancestor s1Heap 2 m) :=
  ⟨by decide, by decide, by decide, by decide,
    not_not.mp fun hno =>
      Bool.noConfusion
        ((bound_var_complete s1Ops s1Heap (by decide) (by decide) 2
          ⟨⟨10⟩, 1, [3, 4], 0, true⟩ (by decide) (by decide)).mpr hno)⟩

/-! ## C6: the index check of getOutgoingTerm -/

/-- C6: `getOutgoingTerm(pos)` throws the exception "invalid outgoing set
index" if and only if `pos >= getArity()`; in particular it does at
`pos = getArity()`. -/
theorem getOutgoingTerm_invalid_iff (hp : Heap) (t : PatternTerm) (pos : Nat) :
    ((∃ e, t.getOutgoingTerm hp pos = Except.error e ∧ e.fmt = invalidIndex) ↔
      t.getArity ≤ pos) ∧
    t.getOutgoingTerm hp t.getArity = Except.error ⟨invalidIndex, t.getArity⟩ := by
  constructor
  · constructor
    · rintro ⟨e, he, hfmt⟩
      by_contra hlt
      have hlt2 : pos < t.getArity := Nat.lt_of_not_le hlt
      unfold PatternTerm.getOutgoingTerm at he
      rw [dif_pos hlt2] at he
      simp only at he
      split at he
      · cases he
        have hne : ¬ ("expired outgoing set index %d" : String) = invalidIndex := by decide
        exact hne hfmt
      · cases he
    · intro hle
      refine ⟨⟨invalidIndex, pos⟩, ?_, rfl⟩
      unfold PatternTerm.getOutgoingTerm
      rw [dif_neg (Nat.not_lt_of_le hle)]
      rfl
  · unfold PatternTerm.getOutgoingTerm
    rw [dif_neg (Nat.lt_irrefl _)]
    rfl

/-! ## C7: getArity and the length of getOutgoingSet -/

/-- C7, counterexample: after a child that was attached has been destroyed,
the parent (node 2) has `getArity() = 1` while `getOutgoingSet()` is empty. -/
theorem arity_counts_released_child :
    run init releasedOps = some releasedHeap ∧
    deref releasedHeap 2 = some ⟨⟨10⟩, 1, [3], 0, false⟩ ∧
    PatternTerm.getArity ⟨⟨10⟩, 1, [3], 0, false⟩ = 1 ∧
    PatternTerm.getOutgoingSet releasedHeap ⟨⟨10⟩, 1, [3], 0, false⟩ = [] ∧
    PatternTerm.getArity ⟨⟨10⟩, 1, [3], 0, false⟩ ≠
      (PatternTerm.getOutgoingSet releasedHeap ⟨⟨10⟩, 1, [3], 0, false⟩).length := by
  decide

theorem filterMap_length_eq_iff {α β : Type} (f : α → Option β) (l : List α) :
    (l.filterMap f).length = l.length ↔ ∀ x ∈ l, (f x).isSome := by
  induction l with
  | nil => simp
  | cons a l ih =>
    have hle : (l.filterMap f).length ≤ l.length := List.length_filterMap_le f l
    cases hfa : f a with
    | none =>
      simp only [List.filterMap_cons, hfa, List.length_cons, List.mem_cons, forall_eq_or_imp,
        Option.isSome_none]
      constructor
      · intro h; omega
      · intro h; exact absurd h.1 (by simp)
    | some b =>
      simp only [List.filterMap_cons, hfa, List.length_cons, List.mem_cons, forall_eq_or_imp,
        Option.isSome_some, true_and]
      rw [← ih]
      omega

theorem lock_ne_nullptr_iff (hp : Heap) (w : PatternTermPtr) :
    lock hp w ≠ nullptr ↔ (deref hp w).isSome := by
  unfold lock
  constructor
  · intro h
    by_contra hn
    rw [if_neg hn] at h
    exact h rfl
  · intro h
    rw [if_pos h]
    intro e
    rw [e, deref_nullptr] at h
    cases h

/-- C7, amended: `getOutgoingSet().size()` never exceeds `getArity()`, and the
two are equal exactly when every pointer passed to `addOutgoingTerm` still
refers to a live node. -/
theorem arity_eq_outgoingSet_length_iff (hp : Heap) (t : PatternTerm) :
    (t.getOutgoingSet hp).length ≤ t.getArity ∧
    (t.getArity = (t.getOutgoingSet hp).length ↔
      ∀ w ∈ t._outgoing, (deref hp w).isSome) := by
  unfold PatternTerm.getOutgoingSet PatternTerm.getArity
  refine ⟨List.length_filterMap_le _ _, ?_⟩
  rw [eq_comm, filterMap_length_eq_iff]
  constructor
  · intro h w hw
    have := h w hw
    simp only at this
    by_cases hl : lock hp w ≠ nullptr
    · exact (lock_ne_nullptr_iff hp w).mp hl
    · rw [if_neg hl] at this
      cases this
  · intro h w hw
    have hl : lock hp w ≠ nullptr := (lock_ne_nullptr_iff hp w).mpr (h w hw)
    simp only
    rw [if_pos hl]
    rfl

/-- Witness for the amended C7 on the clause `Pair(X, X)`: both children of
Pair are live, and `getArity()` is the length of `getOutgoingSet()`. -/
theorem arity_eq_outgoingSet_length_iff_witness :
    (∀ w ∈ PatternTerm._outgoing ⟨⟨10⟩, 1, [3, 4], 0, false⟩, (deref pairHeap w).isSome) ∧
    PatternTerm.getArity ⟨⟨10⟩, 1, [3, 4], 0, false⟩ =
      (PatternTerm.getOutgoingSet pairHeap ⟨⟨10⟩, 1, [3, 4], 0, false⟩).length :=
  ⟨by decide,
    (arity_eq_outgoingSet_length_iff pairHeap ⟨⟨10⟩, 1, [3, 4], 0, false⟩).2.mpr
      (by decide)⟩

/-! ## C8: children in construction order -/

theorem SameLive.lock {hp hp1 : Heap} (h : SameLive hp hp1) (w : PatternTermPtr) :
    lock hp1 w = lock hp w := by
  unfold opencog.lock
  rw [h w]

theorem SameLive.getOutgoingSet {hp hp1 : Heap} (h : SameLive hp hp1) (t : PatternTerm) :
    t.getOutgoingSet hp1 = t.getOutgoingSet hp := by
  unfold PatternTerm.getOutgoingSet
  simp only [h.lock]

theorem SameLive.getOutgoingTerm {hp hp1 : Heap} (h : SameLive hp hp1) (t : PatternTerm)
    (pos : Nat) : t.getOutgoingTerm hp1 pos = t.getOutgoingTerm hp pos := by
  unfold PatternTerm.getOutgoingTerm
  simp only [h.lock]

theorem SameLive.trans_live {a b c : Heap} (h1 : SameLive a b) (h2 : SameLive b c) :
    SameLive a c := fun q => (h2 q).trans (h1 q)

theorem store_sameLive {hp : Heap} {p : PatternTermPtr} {t : PatternTerm}
    (ht : deref hp p = some t) (t1 : PatternTerm) : SameLive hp (store hp p t1) := by
  intro q
  by_cases hq : q = p
  · obtain ⟨h0, hlt⟩ := deref_bound ht
    rw [hq, deref_store_same t1 h0 hlt, ht]
    rfl
  · rw [deref_store_other t1 hq]

theorem addOutgoingTerm_effect {hp : Heap} {this : PatternTermPtr} {t : PatternTerm}
    (ht : deref hp this = some t) (c : PatternTermPtr) :
    addOutgoingTerm hp this c =
        some (store hp this { t with _outgoing := t._outgoing ++ [c] }) ∧
      deref (store hp this { t with _outgoing := t._outgoing ++ [c] }) this =
        some { t with _outgoing := t._outgoing ++ [c] } ∧
      SameLive hp (store hp this { t with _outgoing := t._outgoing ++ [c] }) := by
  obtain ⟨h0, hlt⟩ := deref_bound ht
  refine ⟨?_, deref_store_same _ h0 hlt, store_sameLive ht _⟩
  unfold addOutgoingTerm
  rw [ht]

theorem filterMap_eq_self {α : Type} (f : α → Option α) (l : List α)
    (h : ∀ x ∈ l, f x = some x) : l.filterMap f = l := by
  induction l with
  | nil => rfl
  | cons a l ih =>
    rw [List.filterMap_cons, h a (List.mem_cons_self _ _),
      ih (fun x hx => h x (List.mem_cons_of_mem _ hx))]

theorem getOutgoingSet_all_live (hp : Heap) (t : PatternTerm)
    (h : ∀ w ∈ t._outgoing, (deref hp w).isSome) : t.getOutgoingSet hp = t._outgoing := by
  unfold PatternTerm.getOutgoingSet
  apply filterMap_eq_self
  intro w hw
  have ha : (deref hp w).isSome := h w hw
  have hla : lock hp w = w := by unfold lock; rw [if_pos ha]
  have hne : lock hp w ≠ nullptr := (lock_ne_nullptr_iff hp w).mpr ha
  show (if lock hp w ≠ nullptr then some (lock hp w) else none) = some w
  rw [if_pos hne, hla]

theorem run_addOutgoingTerm (this : PatternTermPtr) : ∀ (cs : List PatternTermPtr)
    (hp : Heap) (t : PatternTerm), deref hp this = some t →
    (∀ c ∈ cs, (deref hp c).isSome) →
    ∃ hp1, run hp (cs.map (Op.addOutgoingTerm this)) = some hp1 ∧
      deref hp1 this = some { t with _outgoing := t._outgoing ++ cs } ∧
      SameLive hp hp1 := by
  intro cs
  induction cs with
  | nil =>
    intro hp t ht _
    refine ⟨hp, rfl, ?_, fun _ => rfl⟩
    rw [ht, List.append_nil]
  | cons c cs ih =>
    intro hp t ht hl
    obtain ⟨h1, h2, h3⟩ := addOutgoingTerm_effect ht c
    have hc : (deref hp c).isSome := hl c (List.mem_cons_self _ _)
    have hl2 : ∀ d ∈ cs, (deref (store hp this
        { t with _outgoing := t._outgoing ++ [c] }) d).isSome := by
      intro d hd
      rw [h3 d]
      exact hl d (List.mem_cons_of_mem _ hd)
    obtain ⟨hp1, hr, hd, hsl⟩ := ih _ _ h2 hl2
    refine ⟨hp1, ?_, ?_, h3.trans_live hsl⟩
    · simp only [List.map_cons, run, step, hc, or_true, if_true, h1]
      exact hr
    · rw [hd]
      simp only [List.append_assoc, List.singleton_append]

/-- C8: `addOutgoingTerm(c)` with a live `c` raises the arity by one, puts `c`
at the index equal to the old arity and leaves every earlier position as it
was; and after `addOutgoingTerm(c1)`, ..., `addOutgoingTerm(ck)` on a node
without children, all `ci` live, the arity is `k` and `getOutgoingSet()` is
`[c1, ..., ck]`. -/
theorem children_in_construction_order (hp : Heap) (this : PatternTermPtr)
    (t : PatternTerm) (ht : deref hp this = some t) :
    (∀ c, (deref hp c).isSome →
      ∃ hp1 t1, addOutgoingTerm hp this c = some hp1 ∧ deref hp1 this = some t1 ∧
        t1.getArity = t.getArity + 1 ∧
        t1.getOutgoingTerm hp1 t.getArity = Except.ok c ∧
        ∀ i, i < t.getArity → t1.getOutgoingTerm hp1 i = t.getOutgoingTerm hp i) ∧
    (∀ cs : List PatternTermPtr, t._outgoing = [] → (∀ c ∈ cs, (deref hp c).isSome) →
      ∃ hp1 t1, run hp (cs.map (Op.addOutgoingTerm this)) = some hp1 ∧
        deref hp1 this = some t1 ∧ t1.getArity = cs.length ∧
        t1.getOutgoingSet hp1 = cs) := by
  constructor
  · intro c hc
    obtain ⟨h1, h2, h3⟩ := addOutgoingTerm_effect ht c
    refine ⟨_, _, h1, h2, ?_, ?_, ?_⟩
    · simp [PatternTerm.getArity]
    · rw [h3.getOutgoingTerm]
      have hlt : t.getArity < ({ t with _outgoing := t._outgoing ++ [c] } :
          PatternTerm).getArity := by simp [PatternTerm.getArity]
      unfold PatternTerm.getOutgoingTerm
      rw [dif_pos hlt]
      have hget : ({ t with _outgoing := t._outgoing ++ [c] } : PatternTerm)._outgoing.get
          ⟨t.getArity, hlt⟩ = c := by
        simp [PatternTerm.getArity]
      have hla : lock hp c = c := by unfold lock; rw [if_pos hc]
      have hne : ¬ lock hp c = nullptr := (lock_ne_nullptr_iff hp c).mpr hc
      simp only [hget, hla]
      rw [hla] at hne
      rw [if_neg hne]
    · intro i hi
      rw [h3.getOutgoingTerm]
      have hlt : i < ({ t with _outgoing := t._outgoing ++ [c] } :
          PatternTerm).getArity := by
        simp only [PatternTerm.getArity, List.length_append, List.length_singleton]
        exact Nat.lt_succ_of_lt hi
      unfold PatternTerm.getOutgoingTerm
      rw [dif_pos hlt, dif_pos hi]
      have hget : ({ t with _outgoing := t._outgoing ++ [c] } : PatternTerm)._outgoing.get
          ⟨i, hlt⟩ = t._outgoing.get ⟨i, hi⟩ := by
        simp only [List.get_eq_getElem]
        exact List.getElem_append_left hi
      simp only [hget]
  · intro cs hempty hl
    obtain ⟨hp1, hr, hd, hsl⟩ := run_addOutgoingTerm this cs hp t ht hl
    refine ⟨hp1, _, hr, hd, ?_, ?_⟩
    · simp [PatternTerm.getArity, hempty]
    · rw [getOutgoingSet_all_live]
      · simp [hempty]
      · intro w hw
        rw [hsl w]
        simp only [hempty, List.nil_append] at hw
        exact hl w hw

/-- Witness for C8: on the node for Pair (2) of `nestedHeap`, attaching the
live node 5 puts it at index 2. -/
theorem children_in_construction_order_witness :
    deref nestedHeap 2 = some ⟨⟨10⟩, 1, [3, 4], 0, false⟩ ∧
    (deref nestedHeap 5).isSome ∧
    ∃ hp1 t1, addOutgoingTerm nestedHeap 2 5 = some hp1 ∧ deref hp1 2 = some t1 ∧
      t1.getArity = PatternTerm.getArity ⟨⟨10⟩, 1, [3, 4], 0, false⟩ + 1 ∧
      t1.getOutgoingTerm hp1 (PatternTerm.getArity ⟨⟨10⟩, 1, [3, 4], 0, false⟩) =
        Except.ok 5 ∧
      ∀ i, i < PatternTerm.getArity ⟨⟨10⟩, 1, [3, 4], 0, false⟩ →
        t1.getOutgoingTerm hp1 i =
          PatternTerm.getOutgoingTerm nestedHeap ⟨⟨10⟩, 1, [3, 4], 0, false⟩ i :=
  ⟨by decide, by decide,
    (children_in_construction_order nestedHeap 2 ⟨⟨10⟩, 1, [3, 4], 0, false⟩
      (by decide)).1 5 (by decide)⟩

/-! ## C9: isQuoted reads the parent -/

/-- C9: for a live node with a live parent, `isQuoted()` is true if and only
if the parent has `_quote_depth > 0`, whatever the node's own `_quote_depth`
is.  In scenario S2 the quotation node (2) has depth 1 and is not quoted, its
child (3) and grandchild (4) have depth 1 and are quoted. -/
theorem isQuoted_iff_parent_depth (hp : Heap) (n : PatternTermPtr)
    (tn tp : PatternTerm) (_hn : deref hp n = some tn)
    (hpar : deref hp tn._parent = some tp) :
    (tn.isQuoted hp = some true ↔ tp._quote_depth > 0) ∧
    (tn.isQuoted hp = some false ↔ tp._quote_depth = 0) ∧
    (∀ d, PatternTerm.isQuoted hp { tn with _quote_depth := d } = tn.isQuoted hp) ∧
    (run init s2Ops = some s2Heap ∧
      (deref s2Heap 2).map (fun t => (t._quote_depth, t.isQuoted s2Heap)) =
        some (1, some false) ∧
      (deref s2Heap 3).map (fun t => (t._quote_depth, t.isQuoted s2Heap)) =
        some (1, some true) ∧
      (deref s2Heap 4).map (fun t => (t._quote_depth, t.isQuoted s2Heap)) =
        some (1, some true)) := by
  refine ⟨?_, ?_, fun d => rfl, by decide⟩
  · unfold PatternTerm.isQuoted
    rw [hpar]
    simp
  · unfold PatternTerm.isQuoted
    rw [hpar]
    simp

/-- Witness for C9 on scenario S2: Foo (3) under the quotation node (2). -/
theorem isQuoted_iff_parent_depth_witness :
    deref s2Heap 3 = some ⟨⟨51⟩, 2, [4], 1, true⟩ ∧
    deref s2Heap 2 = some ⟨⟨50⟩, 1, [3], 1, true⟩ ∧
    PatternTerm.isQuoted s2Heap ⟨⟨51⟩, 2, [4], 1, true⟩ = some true :=
  ⟨by decide, by decide,
    (isQuoted_iff_parent_depth s2Heap 3 ⟨⟨51⟩, 2, [4], 1, true⟩ ⟨⟨50⟩, 1, [3], 1, true⟩
      (by decide) (by decide)).1.mpr (by decide)⟩

/-! ## C10: the constructor with a parent -/

theorem FlagExt.back {hp hp1 : Heap} {q : PatternTermPtr} (h : FlagExt hp hp1 q)
    {p : PatternTermPtr} {t1 : PatternTerm} (ht1 : deref hp1 p = some t1) :
    ∃ t b, deref hp p = some t ∧ t1 = { t with _has_any_bound_var := b } := by
  cases hd : deref hp p with
  | none => rw [h.2.1 p hd] at ht1; cases ht1
  | some t =>
    obtain ⟨b, hb, _⟩ := h.2.2 p t hd
    rw [hb] at ht1
    cases ht1
    exact ⟨t, b, rfl, rfl⟩

theorem store_outBound {hp : Heap} {p : PatternTermPtr} {t t1 : PatternTerm}
    (ho : OutBound hp) (ht : deref hp p = some t)
    (h1 : ∀ w ∈ t1._outgoing, w < hp.length) : OutBound (store hp p t1) := by
  intro n tn hn w hw
  rw [length_store]
  by_cases hnp : n = p
  · obtain ⟨h0, hlt⟩ := deref_bound ht
    rw [hnp, deref_store_same t1 h0 hlt] at hn
    cases hn
    exact h1 w hw
  · rw [deref_store_other t1 hnp] at hn
    exact ho n tn hn w hw

theorem alloc_outBound {hp : Heap} {t : PatternTerm} (hs : Struct hp) (ho : OutBound hp)
    (ht : t._outgoing = []) : OutBound (hp ++ [some t]) := by
  intro n tn hn w hw
  rw [List.length_append, List.length_singleton]
  rcases alloc_cases hs hn with ⟨_, hd⟩ | ⟨_, he⟩
  · exact Nat.lt_succ_of_lt (ho n tn hd w hw)
  · rw [he, ht] at hw
    cases hw

theorem step_outBound {hp hp1 : Heap} {op : Op} (hs : Struct hp)
    (hm : MonoAt hp PatternTerm.UNDEFINED) (ho : OutBound hp)
    (h : step hp op = some hp1) : OutBound hp1 := by
  cases op with
  | mkRoot =>
    simp only [step, make_shared, Option.some.injEq] at h
    rw [← h]
    exact alloc_outBound hs ho rfl
  | mkChild parent hd =>
    simp only [step] at h
    cases hnew : PatternTerm.new hp parent hd with
    | none => rw [hnew] at h; cases h
    | some t =>
      rw [hnew] at h
      simp only [make_shared, Option.some.injEq] at h
      obtain ⟨tp, _, ht⟩ := new_effect hnew
      rw [← h]
      exact alloc_outBound hs ho (by rw [ht])
  | addOutgoingTerm this ptm =>
    simp only [step] at h
    split at h
    · rename_i hc
      cases hd : deref hp this with
      | none => simp [addOutgoingTerm, hd] at h
      | some t =>
        rw [(addOutgoingTerm_effect hd ptm).1] at h
        cases h
        apply store_outBound ho hd
        intro w hw
        simp only [List.mem_append, List.mem_singleton] at hw
        rcases hw with hw | hw
        · exact ho this t hd w hw
        · rcases hc with hc | hc
          · rw [hw, hc]
            have := hs.length_ge
            show 0 < hp.length
            omega
          · obtain ⟨tc, htc⟩ := Option.isSome_iff_exists.mp hc
            rw [hw]
            exact (deref_bound htc).2
    · cases h
  | addQuote this =>
    cases hd : deref hp this with
    | none => simp [step, addQuote, hd] at h
    | some t =>
      simp only [step, addQuote, hd, Option.some.injEq] at h
      rw [← h]
      exact store_outBound ho hd (fun w hw => ho this t hd w hw)
  | remQuote this =>
    cases hd : deref hp this with
    | none => simp [step, remQuote, hd] at h
    | some t =>
      simp only [step, remQuote, hd, Option.some.injEq] at h
      rw [← h]
      exact store_outBound ho hd (fun w hw => ho this t hd w hw)
  | addBoundVariable this =>
    cases (step_kind hs rfl h : StepKind hp hp1 (Op.addBoundVariable this)) with
    | agree _ hop => exact absurd rfl (hop this)
    | alloc _ _ _ _ hop => exact absurd rfl (hop this)
    | mark q hop hq hl hres =>
      obtain ⟨tq, htq⟩ := Option.isSome_iff_exists.mp hl
      have hm2 : MonoAt hp q := by
        intro k tk hk hfl
        rcases hm k tk hk hfl with h4 | h4 | h4
        · exact Or.inl h4
        · exact Or.inl h4
        · exact Or.inr (Or.inr h4)
      obtain ⟨hp2, hres2, _, _, hext, _⟩ :=
        addBoundVariable_spec hp.length hp q hs hm2 hq hl (deref_bound htq).2
      rw [hres] at hres2
      cases hres2
      intro n tn hn w hw
      obtain ⟨t, b, ht, he⟩ := hext.back hn
      rw [hext.1]
      rw [he] at hw
      exact ho n t ht w hw
  | release p =>
    have h : release hp p = some hp1 := h
    obtain ⟨_, _, hgone, hrest⟩ := release_effect h
    have hlen : hp1.length = hp.length := by
      unfold release at h
      split at h
      · cases h; simp
      · cases h
    intro n tn hn w hw
    have hnp : n ≠ p := by
      intro e; rw [e, hgone] at hn; cases hn
    rw [hrest n hnp] at hn
    rw [hlen]
    exact ho n tn hn w hw

theorem run_outBound : ∀ (ops : List Op) (hp hp1 : Heap), Struct hp →
    MonoAt hp PatternTerm.UNDEFINED → OutBound hp → run hp ops = some hp1 →
    OutBound hp1 := by
  intro ops
  induction ops with
  | nil =>
    intro hp hp1 _ _ ho h
    simp only [run, Option.some.injEq] at h
    rw [← h]; exact ho
  | cons op ops ih =>
    intro hp hp1 hs hm ho h
    simp only [run] at h
    cases hst : step hp op with
    | none => rw [hst] at h; cases h
    | some hp2 =>
      rw [hst] at h
      obtain ⟨hs2, hm2⟩ := step_struct hs hm hst
      exact ih hp2 hp1 hs2 hm2 (step_outBound hs hm ho hst) h

theorem init_outBound : OutBound init := by
  intro n t hn w hw
  rw [(deref_init hn).2] at hw
  cases hw

theorem getOutgoingSet_append (hp : Heap) (c : Option PatternTerm) (t : PatternTerm)
    (h : ∀ w ∈ t._outgoing, w < hp.length) :
    t.getOutgoingSet (hp ++ [c]) = t.getOutgoingSet hp := by
  unfold PatternTerm.getOutgoingSet
  apply List.filterMap_congr
  intro w hw
  have : lock (hp ++ [c]) w = lock hp w := by
    unfold lock
    rw [deref_append_old c (h w hw)]
  simp only [this]

/-- C10: in a heap reached by the steps, for a live parent `p` and an atom
`h`, the constructor `PatternTerm(p, h)` gives a node with that handle and
parent, the parent's `_quote_depth`, no bound-variable mark and arity 0; the
new object is live at its address, and every node that existed before, `p`
among them, is the same object as before and has the same `getOutgoingSet()`:
the new node is not attached to `p`. -/
theorem child_construction_frame (ops : List Op) (hp : Heap)
    (hrun : run init ops = some hp) (p : PatternTermPtr) (tp : PatternTerm)
    (h : Handle) (hpl : deref hp p = some tp) :
    ∃ tn, PatternTerm.new hp p h = some tn ∧
      tn.getHandle = h ∧ tn.getParent = p ∧ tn._quote_depth = tp._quote_depth ∧
      tn.hasAnyBoundVariable = false ∧ tn.getArity = 0 ∧
      step hp (Op.mkChild p h) = some (make_shared hp tn).1 ∧
      deref (make_shared hp tn).1 (make_shared hp tn).2 = some tn ∧
      ∀ q t, deref hp q = some t →
        deref (make_shared hp tn).1 q = some t ∧
        t.getOutgoingSet (make_shared hp tn).1 = t.getOutgoingSet hp := by
  obtain ⟨hs, hm⟩ := run_struct ops init hp init_struct init_mono hrun
  have ho := run_outBound ops init hp init_struct init_mono init_outBound hrun
  have hnew : PatternTerm.new hp p h = some ⟨h, p, [], tp._quote_depth, false⟩ := by
    unfold PatternTerm.new
    rw [hpl]
  refine ⟨_, hnew, rfl, rfl, rfl, rfl, rfl, ?_, ?_, ?_⟩
  · simp only [step, hnew]
  · have hlen : hp.length ≠ 0 := by have := hs.length_ge; omega
    exact deref_append_new _ hlen
  · intro q t hq
    constructor
    · show deref (hp ++ [_]) q = some t
      rw [deref_append_old _ (deref_bound hq).2, hq]
    · exact getOutgoingSet_append hp _ t (ho q t hq)

/-- Witness for C10: a second child built under Pair (2) of `pairHeap`. -/
theorem child_construction_frame_witness :
    run init pairOps = some pairHeap ∧
    deref pairHeap 2 = some ⟨⟨10⟩, 1, [3, 4], 0, false⟩ ∧
    ∃ tn, PatternTerm.new pairHeap 2 ⟨20⟩ = some tn ∧
      tn.getHandle = ⟨20⟩ ∧ tn.getParent = 2 ∧
      tn._quote_depth = PatternTerm._quote_depth ⟨⟨10⟩, 1, [3, 4], 0, false⟩ ∧
      tn.hasAnyBoundVariable = false ∧ tn.getArity = 0 ∧
      step pairHeap (Op.mkChild 2 ⟨20⟩) = some (make_shared pairHeap tn).1 ∧
      deref (make_shared pairHeap tn).1 (make_shared pairHeap tn).2 = some tn ∧
      ∀ q t, deref pairHeap q = some t →
        deref (make_shared pairHeap tn).1 q = some t ∧
        t.getOutgoingSet (make_shared pairHeap tn).1 = t.getOutgoingSet pairHeap :=
  ⟨by decide, by decide,
    child_construction_frame pairOps pairHeap (by decide) 2
      ⟨⟨10⟩, 1, [3, 4], 0, false⟩ ⟨20⟩ (by decide)⟩

/-! ## C11: addBoundVariable is idempotent -/

theorem mark_returns {ops : List Op} {hp : Heap} (hrun : run init ops = some hp)
    {n : PatternTermPtr} (hne : n ≠ PatternTerm.UNDEFINED) (hl : (deref hp n).isSome) :
    ∃ hp1, step hp (Op.addBoundVariable n) = some hp1 ∧ Struct hp1 ∧
      MonoAt hp1 PatternTerm.UNDEFINED ∧ FlagExt hp hp1 n ∧ Flagged hp1 n := by
  obtain ⟨hs, hm⟩ := run_struct ops init hp init_struct init_mono hrun
  obtain ⟨t, ht⟩ := Option.isSome_iff_exists.mp hl
  have hm2 : MonoAt hp n := by
    intro k tk hk hfl
    rcases hm k tk hk hfl with h4 | h4 | h4
    · exact Or.inl h4
    · exact Or.inl h4
    · exact Or.inr (Or.inr h4)
  exact addBoundVariable_spec hp.length hp n hs hm2 hne hl (deref_bound ht).2

theorem OnlyMarks.refl_marks (hp : Heap) : OnlyMarks hp hp :=
  ⟨rfl, fun _ h => h, fun _ t ht => ⟨t._has_any_bound_var, ht, fun h => h⟩⟩

theorem OnlyMarks.trans_marks {a b c : Heap} (h1 : OnlyMarks a b) (h2 : OnlyMarks b c) :
    OnlyMarks a c := by
  refine ⟨h2.1.trans h1.1, fun p hp_ => h2.2.1 p (h1.2.1 p hp_), ?_⟩
  intro p t ht
  obtain ⟨b1, hb1, hm1⟩ := h1.2.2 p t ht
  obtain ⟨b2, hb2, hm2⟩ := h2.2.2 p _ hb1
  exact ⟨b2, hb2, fun h => hm2 (hm1 h)⟩

theorem OnlyMarks.flagged_marks {hp hp1 : Heap} (h : OnlyMarks hp hp1) {p : PatternTermPtr}
    (hf : Flagged hp p) : Flagged hp1 p := by
  obtain ⟨t, ht, hfl⟩ := hf
  obtain ⟨b, hb, hm⟩ := h.2.2 p t ht
  exact ⟨_, hb, hm hfl⟩

theorem store_onlyMarks {hp : Heap} {q : PatternTermPtr} {t : PatternTerm}
    (ht : deref hp q = some t) :
    OnlyMarks hp (store hp q { t with _has_any_bound_var := true }) := by
  obtain ⟨h0, hlt⟩ := deref_bound ht
  refine ⟨length_store _ _ _, ?_, ?_⟩
  · intro p hpn
    have hpq : p ≠ q := by
      intro e; rw [e, ht] at hpn; cases hpn
    rw [deref_store_other _ hpq, hpn]
  · intro p tp htp
    by_cases hpq : p = q
    · rw [hpq, ht] at htp
      cases htp
      exact ⟨true, by rw [hpq]; exact deref_store_same _ h0 hlt, fun _ => rfl⟩
    · exact ⟨tp._has_any_bound_var, by rw [deref_store_other _ hpq, htp], fun h => h⟩

theorem addBoundVariable_onlyMarks : ∀ (fuel : Nat) (hp hp1 : Heap) (q : PatternTermPtr),
    addBoundVariable fuel hp q = some hp1 → OnlyMarks hp hp1 ∧ Flagged hp1 q := by
  intro fuel
  induction fuel with
  | zero => intro hp hp1 q h; cases h
  | succ fuel ih =>
    intro hp hp1 q h
    rw [addBoundVariable] at h
    cases hd : deref hp q with
    | none => rw [hd] at h; cases h
    | some t =>
      rw [hd] at h
      cases hb : t._has_any_bound_var with
      | true =>
        simp only [hb, Bool.not_true, Bool.false_eq_true, if_false, Option.some.injEq] at h
        rw [← h]
        exact ⟨OnlyMarks.refl_marks hp, ⟨t, hd, hb⟩⟩
      | false =>
        simp only [hb, Bool.not_false, if_true] at h
        have hq1 : Flagged (store hp q { t with _has_any_bound_var := true }) q :=
          ⟨_, deref_store_same _ (deref_bound hd).1 (deref_bound hd).2, rfl⟩
        by_cases hpar : t._parent = PatternTerm.UNDEFINED
        · rw [if_neg (not_not.mpr hpar)] at h
          cases h
          exact ⟨store_onlyMarks hd, hq1⟩
        · rw [if_pos hpar] at h
          obtain ⟨h1, _⟩ := ih _ _ _ h
          exact ⟨(store_onlyMarks hd).trans_marks h1, h1.flagged_marks hq1⟩

theorem addBoundVariable_flagged {hp : Heap} {q : PatternTermPtr} (hf : Flagged hp q)
    (fuel : Nat) : addBoundVariable (fuel + 1) hp q = some hp := by
  obtain ⟨t, ht, hfl⟩ := hf
  have hfl2 : t._has_any_bound_var = true := hfl
  rw [addBoundVariable, ht]
  simp only [hfl2, Bool.not_true, Bool.false_eq_true, if_false]

/-- C11: a second call of addBoundVariable on the same node changes nothing.
Whenever a call on `n` returns the heap `hp1`, a further call on `n` in `hp1`
returns `hp1` again; and in every heap reached by the steps the call on a
live node other than the sentinel does return, so that calling twice gives
the same heap as calling once. -/
theorem addBoundVariable_idempotent :
    (∀ (fuel : Nat) (hp hp1 : Heap) (n : PatternTermPtr),
      addBoundVariable fuel hp n = some hp1 →
      (∀ fuel2, 0 < fuel2 → addBoundVariable fuel2 hp1 n = some hp1) ∧
        step hp1 (Op.addBoundVariable n) = some hp1) ∧
    (∀ (ops : List Op) (hp : Heap) (n : PatternTermPtr), run init ops = some hp →
      n ≠ PatternTerm.UNDEFINED → (deref hp n).isSome →
      ∃ hp1, run hp [Op.addBoundVariable n] = some hp1 ∧
        run hp [Op.addBoundVariable n, Op.addBoundVariable n] = some hp1) := by
  have general : ∀ (fuel : Nat) (hp hp1 : Heap) (n : PatternTermPtr),
      addBoundVariable fuel hp n = some hp1 →
      (∀ fuel2, 0 < fuel2 → addBoundVariable fuel2 hp1 n = some hp1) ∧
        step hp1 (Op.addBoundVariable n) = some hp1 := by
    intro fuel hp hp1 n h
    obtain ⟨_, hf⟩ := addBoundVariable_onlyMarks fuel hp hp1 n h
    have h1 : ∀ fuel2, 0 < fuel2 → addBoundVariable fuel2 hp1 n = some hp1 := by
      intro fuel2 hpos
      obtain ⟨k, hk⟩ : ∃ k, fuel2 = k + 1 := ⟨fuel2 - 1, by omega⟩
      rw [hk]
      exact addBoundVariable_flagged hf k
    refine ⟨h1, ?_⟩
    obtain ⟨t, ht, _⟩ := hf
    have hlen : 0 < hp1.length := Nat.lt_of_le_of_lt (Nat.zero_le _) (deref_bound ht).2
    exact h1 hp1.length hlen
  refine ⟨general, ?_⟩
  intro ops hp n hrun hne hl
  obtain ⟨hp1, hstep, _⟩ := mark_returns hrun hne hl
  have hstep : addBoundVariable hp.length hp n = some hp1 := hstep
  have h2 := (general hp.length hp hp1 n hstep).2
  refine ⟨hp1, ?_, ?_⟩
  · simp only [run, step, hstep]
  · have h3 : addBoundVariable hp1.length hp1 n = some hp1 := h2
    simp only [run, step, hstep, h3]

/-- Witness for C11 on the clause `Pair(X, X)`: marking the first X node (3)
twice gives the heap that marking it once gives. -/
theorem addBoundVariable_idempotent_witness :
    run init pairOps = some pairHeap ∧
    ∃ hp1, run pairHeap [Op.addBoundVariable 3] = some hp1 ∧
      run pairHeap [Op.addBoundVariable 3, Op.addBoundVariable 3] = some hp1 :=
  ⟨by decide,
    addBoundVariable_idempotent.2 pairOps pairHeap 3 (by decide) (by decide) (by decide)⟩

/-! ## C12: incomparability is transitive -/

theorem Before.tie_iff (x y : PatternTerm) :
    (¬ Before x y ∧ ¬ Before y x) ↔
      (x._handle = y._handle ∧
        (x._handle = Handle.UNDEFINED ∨ x._parent = y._parent)) := by
  constructor
  · rintro ⟨h1, h2⟩
    have l1 : ¬ x._handle.value < y._handle.value := fun h => h1 (Or.inr h)
    have l2 : ¬ y._handle.value < x._handle.value := fun h => h2 (Or.inr h)
    have he : x._handle = y._handle := Handle.eq_of_value_eq (by omega)
    refine ⟨he, ?_⟩
    by_cases hu : x._handle = Handle.UNDEFINED
    · exact Or.inl hu
    · right
      have p1 : ¬ x._parent < y._parent := fun h => h1 (Or.inl ⟨he, hu, h⟩)
      have p2 : ¬ y._parent < x._parent :=
        fun h => h2 (Or.inl ⟨he.symm, fun e => hu (he.trans e), h⟩)
      exact Nat.le_antisymm (Nat.le_of_not_lt p2) (Nat.le_of_not_lt p1)
  · rintro ⟨he, hor⟩
    have l1 : ¬ x._handle.value < y._handle.value := by rw [he]; exact Nat.lt_irrefl _
    have l2 : ¬ y._handle.value < x._handle.value := by rw [he]; exact Nat.lt_irrefl _
    constructor
    · rintro (⟨_, hu, hp_⟩ | h)
      · rcases hor with h | h
        · exact hu h
        · rw [h] at hp_; exact Nat.lt_irrefl _ hp_
      · exact l1 h
    · rintro (⟨_, hu, hp_⟩ | h)
      · rcases hor with h | h
        · exact hu (he.symm.trans h)
        · rw [h] at hp_; exact Nat.lt_irrefl _ hp_
      · exact l2 h

/-- C12: for live nodes a, b, c, if neither of a, b is less than the other
and neither of b, c is less than the other, then neither of a, c is less
than the other. -/
theorem incomparable_transitive (hp : Heap) (a b c : PatternTermPtr)
    (ha : (deref hp a).isSome) (hb : (deref hp b).isSome) (hc : (deref hp c).isSome)
    (hab : less hp a b = some false ∧ less hp b a = some false)
    (hbc : less hp b c = some false ∧ less hp c b = some false) :
    less hp a c = some false ∧ less hp c a = some false := by
  obtain ⟨ta, hta⟩ := Option.isSome_iff_exists.mp ha
  obtain ⟨tb, htb⟩ := Option.isSome_iff_exists.mp hb
  obtain ⟨tc, htc⟩ := Option.isSome_iff_exists.mp hc
  have e1 := (Before.tie_iff ta tb).mp
    ⟨(less_false_iff hta htb).mp hab.1, (less_false_iff htb hta).mp hab.2⟩
  have e2 := (Before.tie_iff tb tc).mp
    ⟨(less_false_iff htb htc).mp hbc.1, (less_false_iff htc htb).mp hbc.2⟩
  have e3 : ¬ Before ta tc ∧ ¬ Before tc ta := by
    refine (Before.tie_iff ta tc).mpr ⟨e1.1.trans e2.1, ?_⟩
    rcases e1.2 with h | h
    · exact Or.inl h
    · rcases e2.2 with h2 | h2
      · exact Or.inl (e1.1.trans h2)
      · exact Or.inr (h.trans h2)
  exact ⟨(less_false_iff hta htc).mpr e3.1, (less_false_iff htc hta).mpr e3.2⟩

/-- Witness for C12 on the clause `Pair(X, X)`: the two X nodes (3 and 4) tie
with each other, hence 3 ties with itself through 4. -/
theorem incomparable_transitive_witness :
    (deref pairHeap 3).isSome ∧ (deref pairHeap 4).isSome ∧
    (less pairHeap 3 4 = some false ∧ less pairHeap 4 3 = some false) ∧
    (less pairHeap 3 3 = some false ∧ less pairHeap 3 3 = some false) :=
  ⟨by decide, by decide, by decide,
    incomparable_transitive pairHeap 3 4 3 (by decide) (by decide) (by decide)
      (by decide) (by decide)⟩

/-! ## C13: the ordering looks at the atoms first -/

/-- C13: for two live nodes whose atoms differ, `less` holds exactly when the
atom of the first is below the atom of the second, and any two live nodes
with these two atoms compare the same way whatever their parents are; two
live nodes that both carry the undefined atom are not less than each other
in either direction. -/
theorem less_by_atom_first (hp : Heap) (a b : PatternTermPtr) (ta tb : PatternTerm)
    (hta : deref hp a = some ta) (htb : deref hp b = some tb) :
    (ta._handle ≠ tb._handle →
      (less hp a b = some true ↔ ta._handle < tb._handle) ∧
      (less hp a b = some false ↔ ¬ ta._handle < tb._handle) ∧
      ∀ (hp2 : Heap) (a2 b2 : PatternTermPtr) (ta2 tb2 : PatternTerm),
        deref hp2 a2 = some ta2 → deref hp2 b2 = some tb2 →
        ta2._handle = ta._handle → tb2._handle = tb._handle →
        less hp2 a2 b2 = less hp a b) ∧
    (ta._handle = Handle.UNDEFINED → tb._handle = Handle.UNDEFINED →
      less hp a b = some false ∧ less hp b a = some false) := by
  have key : ∀ (x y : PatternTerm), x._handle ≠ y._handle →
      (Before x y ↔ x._handle < y._handle) := by
    intro x y hne
    constructor
    · rintro (⟨he, _, _⟩ | h)
      · exact absurd he hne
      · exact h
    · intro h; exact Or.inr h
  constructor
  · intro hne
    refine ⟨?_, ?_, ?_⟩
    · rw [less_true_iff hta htb]; exact key ta tb hne
    · rw [less_false_iff hta htb, key ta tb hne]
    · intro hp2 a2 b2 ta2 tb2 h1 h2 e1 e2
      rw [less_eq_decide h1 h2, less_eq_decide hta htb]
      congr 1
      apply decide_eq_decide.mpr
      rw [key ta tb hne, key ta2 tb2 (by rw [e1, e2]; exact hne), e1, e2]
  · intro h1 h2
    have e := (Before.tie_iff ta tb).mpr ⟨h1.trans h2.symm, Or.inl h1⟩
    exact ⟨(less_false_iff hta htb).mpr e.1, (less_false_iff htb hta).mpr e.2⟩

/-- Witness for C13 on the clause `Pair(X, X)`: Pair (atom 10) against an X
node (atom 20). -/
theorem less_by_atom_first_witness :
    deref pairHeap 2 = some ⟨⟨10⟩, 1, [3, 4], 0, false⟩ ∧
    deref pairHeap 3 = some ⟨⟨20⟩, 2, [], 0, false⟩ ∧
    less pairHeap 2 3 = some true :=
  ⟨by decide, by decide,
    ((less_by_atom_first pairHeap 2 3 ⟨⟨10⟩, 1, [3, 4], 0, false⟩ ⟨⟨20⟩, 2, [], 0, false⟩
      (by decide) (by decide)).1 (by decide)).1.mpr (by decide)⟩

/-! ## C14: remQuote at depth 0 -/

/-- C14, counterexample: `remQuote` on a node whose `_quote_depth` is 0 is a
step that succeeds; it leaves the depth 4294967295, and the child of that node
then reports `isQuoted()` true. -/
theorem remQuote_at_zero_wraps :
    run init [Op.mkChild PatternTerm.UNDEFINED ⟨10⟩, Op.mkChild 2 ⟨20⟩,
      Op.addOutgoingTerm 2 3] =
      some [none, some sentinel, some ⟨⟨10⟩, 1, [3], 0, false⟩,
        some ⟨⟨20⟩, 2, [], 0, false⟩] ∧
    run init unbalancedOps = some unbalancedHeap ∧
    (deref unbalancedHeap 2).map (fun t => t._quote_depth) = some 4294967295 ∧
    (deref unbalancedHeap 3).map (fun t => t.isQuoted unbalancedHeap) =
      some (some true) := by
  decide

theorem UINT_MOD_eq : UINT_MOD = 4294967296 := by
  unfold UINT_MOD; norm_num

theorem addQuote_effect {hp : Heap} {this : PatternTermPtr} {t : PatternTerm}
    (ht : deref hp this = some t) :
    addQuote hp this =
      some (store hp this { t with _quote_depth := (t._quote_depth + 1) % UINT_MOD }) := by
  unfold addQuote
  rw [ht]

theorem remQuote_effect {hp : Heap} {this : PatternTermPtr} {t : PatternTerm}
    (ht : deref hp this = some t) :
    remQuote hp this =
      some (store hp this
        { t with _quote_depth := (t._quote_depth + UINT_MOD - 1) % UINT_MOD }) := by
  unfold remQuote
  rw [ht]

theorem store_depthBound {hp : Heap} {p : PatternTermPtr} {t t1 : PatternTerm}
    (hd : DepthBound hp) (ht : deref hp p = some t) (h1 : t1._quote_depth < UINT_MOD) :
    DepthBound (store hp p t1) := by
  intro n tn hn
  by_cases hnp : n = p
  · obtain ⟨h0, hlt⟩ := deref_bound ht
    rw [hnp, deref_store_same t1 h0 hlt] at hn
    cases hn
    exact h1
  · rw [deref_store_other t1 hnp] at hn
    exact hd n tn hn

theorem UINT_MOD_pos : 0 < UINT_MOD := by
  rw [UINT_MOD_eq]; norm_num

theorem step_depthBound {hp hp1 : Heap} {op : Op} (hd : DepthBound hp)
    (h : step hp op = some hp1) : DepthBound hp1 := by
  cases op with
  | mkRoot =>
    simp only [step, make_shared, Option.some.injEq] at h
    rw [← h]
    intro n tn hn
    rcases Nat.lt_or_eq_of_le (deref_append_bound hn) with hlt | heq
    · rw [deref_append_old _ hlt] at hn
      exact hd n tn hn
    · by_cases h0 : hp.length = 0
      · rw [heq, h0] at hn
        exact absurd rfl (deref_bound hn).1
      · rw [heq, deref_append_new _ h0] at hn
        cases hn
        exact UINT_MOD_pos
  | mkChild parent hdl =>
    simp only [step] at h
    cases hnew : PatternTerm.new hp parent hdl with
    | none => rw [hnew] at h; cases h
    | some t =>
      rw [hnew] at h
      simp only [make_shared, Option.some.injEq] at h
      obtain ⟨tp, htp, ht⟩ := new_effect hnew
      rw [← h]
      intro n tn hn
      rcases Nat.lt_or_eq_of_le (deref_append_bound hn) with hlt | heq
      · rw [deref_append_old _ hlt] at hn
        exact hd n tn hn
      · have h0 : hp.length ≠ 0 := by
          intro e
          rw [heq, e] at hn
          exact absurd rfl (deref_bound hn).1
        rw [heq, deref_append_new _ h0] at hn
        cases hn
        rw [ht]
        exact hd parent tp htp
  | addOutgoingTerm this ptm =>
    simp only [step] at h
    split at h
    · cases hdr : deref hp this with
      | none => simp [addOutgoingTerm, hdr] at h
      | some t =>
        rw [(addOutgoingTerm_effect hdr ptm).1] at h
        cases h
        exact store_depthBound hd hdr (hd this t hdr)
    · cases h
  | addQuote this =>
    cases hdr : deref hp this with
    | none => simp [step, addQuote, hdr] at h
    | some t =>
      have h : addQuote hp this = some hp1 := h
      rw [addQuote_effect hdr] at h
      cases h
      exact store_depthBound hd hdr (Nat.mod_lt _ UINT_MOD_pos)
  | remQuote this =>
    cases hdr : deref hp this with
    | none => simp [step, remQuote, hdr] at h
    | some t =>
      have h : remQuote hp this = some hp1 := h
      rw [remQuote_effect hdr] at h
      cases h
      exact store_depthBound hd hdr (Nat.mod_lt _ UINT_MOD_pos)
  | addBoundVariable this =>
    have h : addBoundVariable hp.length hp this = some hp1 := h
    obtain ⟨hom, _⟩ := addBoundVariable_onlyMarks _ _ _ _ h
    intro n tn hn
    cases hdr : deref hp n with
    | none => rw [hom.2.1 n hdr] at hn; cases hn
    | some t =>
      obtain ⟨b, hb, _⟩ := hom.2.2 n t hdr
      rw [hb] at hn
      cases hn
      exact hd n t hdr
  | release p =>
    have h : release hp p = some hp1 := h
    obtain ⟨_, _, hgone, hrest⟩ := release_effect h
    intro n tn hn
    have hnp : n ≠ p := by
      intro e; rw [e, hgone] at hn; cases hn
    rw [hrest n hnp] at hn
    exact hd n tn hn

theorem run_depthBound : ∀ (ops : List Op) (hp hp1 : Heap), DepthBound hp →
    run hp ops = some hp1 → DepthBound hp1 := by
  intro ops
  induction ops with
  | nil =>
    intro hp hp1 hd h
    simp only [run, Option.some.injEq] at h
    rw [← h]; exact hd
  | cons op ops ih =>
    intro hp hp1 hd h
    simp only [run] at h
    cases hst : step hp op with
    | none => rw [hst] at h; cases h
    | some hp2 =>
      rw [hst] at h
      exact ih hp2 hp1 (step_depthBound hd hst) h

theorem init_depthBound : DepthBound init := by
  intro n t hn
  rw [(deref_init hn).2]
  exact UINT_MOD_pos

/-- C14, amended: in every heap reached by the steps every `_quote_depth` is
a value of `unsigned int` (at least 0, below 2^32), and `remQuote` on a live
node always succeeds without an error: it lowers a positive depth by one and
turns depth 0 into 2^32 - 1. -/
theorem remQuote_never_fails (ops : List Op) (hp : Heap) (hrun : run init ops = some hp)
    (n : PatternTermPtr) (t : PatternTerm) (hn : deref hp n = some t) :
    t._quote_depth < UINT_MOD ∧
    ∃ hp1 t1, step hp (Op.remQuote n) = some hp1 ∧ deref hp1 n = some t1 ∧
      t1 = { t with _quote_depth := t1._quote_depth } ∧
      (0 < t._quote_depth → t1._quote_depth = t._quote_depth - 1) ∧
      (t._quote_depth = 0 → t1._quote_depth = UINT_MOD - 1) := by
  have hd := run_depthBound ops init hp init_depthBound hrun n t hn
  refine ⟨hd, _, _, remQuote_effect hn,
    deref_store_same _ (deref_bound hn).1 (deref_bound hn).2, rfl, ?_, ?_⟩
  · intro hpos
    show (t._quote_depth + UINT_MOD - 1) % UINT_MOD = t._quote_depth - 1
    rw [UINT_MOD_eq] at hd ⊢
    omega
  · intro hz
    show (t._quote_depth + UINT_MOD - 1) % UINT_MOD = UINT_MOD - 1
    rw [hz, UINT_MOD_eq]

/-- Witness for the amended C14: `remQuote` on the Pair node of `pairHeap`. -/
theorem remQuote_never_fails_witness :
    run init pairOps = some pairHeap ∧
    deref pairHeap 2 = some ⟨⟨10⟩, 1, [3, 4], 0, false⟩ ∧
    ∃ hp1 t1, step pairHeap (Op.remQuote 2) = some hp1 ∧ deref hp1 2 = some t1 ∧
      t1 = { (⟨⟨10⟩, 1, [3, 4], 0, false⟩ : PatternTerm) with
        _quote_depth := t1._quote_depth } ∧
      (0 < PatternTerm._quote_depth ⟨⟨10⟩, 1, [3, 4], 0, false⟩ →
        t1._quote_depth = PatternTerm._quote_depth ⟨⟨10⟩, 1, [3, 4], 0, false⟩ - 1) ∧
      (PatternTerm._quote_depth ⟨⟨10⟩, 1, [3, 4], 0, false⟩ = 0 →
        t1._quote_depth = UINT_MOD - 1) :=
  ⟨by decide, by decide,
    (remQuote_never_fails pairOps pairHeap (by decide) 2 ⟨⟨10⟩, 1, [3, 4], 0, false⟩
      (by decide)).2⟩

/-! ## Atoms and parents never change -/

theorem KeepsKey.refl_key (hp : Heap) : KeepsKey hp hp :=
  fun _ t ht => ⟨t, ht, rfl, rfl⟩

theorem KeepsKey.trans_key {a b c : Heap} (h1 : KeepsKey a b) (h2 : KeepsKey b c) :
    KeepsKey a c := by
  intro p t ht
  obtain ⟨t1, ht1, e1, e2⟩ := h1 p t ht
  obtain ⟨t2, ht2, e3, e4⟩ := h2 p t1 ht1
  exact ⟨t2, ht2, e3.trans e1, e4.trans e2⟩

theorem store_keepsKey {hp : Heap} {p : PatternTermPtr} {t t1 : PatternTerm}
    (ht : deref hp p = some t) (h1 : t1._handle = t._handle)
    (h2 : t1._parent = t._parent) : KeepsKey hp (store hp p t1) := by
  intro q tq hq
  by_cases hqp : q = p
  · obtain ⟨h0, hlt⟩ := deref_bound ht
    rw [hqp, ht] at hq
    cases hq
    exact ⟨t1, by rw [hqp]; exact deref_store_same t1 h0 hlt, h1, h2⟩
  · exact ⟨tq, by rw [deref_store_other t1 hqp, hq], rfl, rfl⟩

theorem alloc_keepsKey (hp : Heap) (c : Option PatternTerm) : KeepsKey hp (hp ++ [c]) := by
  intro p t ht
  exact ⟨t, by rw [deref_append_old c (deref_bound ht).2, ht], rfl, rfl⟩

theorem OnlyMarks.keepsKey {hp hp1 : Heap} (h : OnlyMarks hp hp1) : KeepsKey hp hp1 := by
  intro p t ht
  obtain ⟨b, hb, _⟩ := h.2.2 p t ht
  exact ⟨_, hb, rfl, rfl⟩

theorem step_keepsKey {hp hp1 : Heap} {op : Op} (hnr : op.isRelease = false)
    (h : step hp op = some hp1) : KeepsKey hp hp1 := by
  cases op with
  | mkRoot =>
    simp only [step, make_shared, Option.some.injEq] at h
    rw [← h]
    exact alloc_keepsKey hp _
  | mkChild parent hdl =>
    simp only [step] at h
    cases hnew : PatternTerm.new hp parent hdl with
    | none => rw [hnew] at h; cases h
    | some t =>
      rw [hnew] at h
      simp only [make_shared, Option.some.injEq] at h
      rw [← h]
      exact alloc_keepsKey hp _
  | addOutgoingTerm this ptm =>
    simp only [step] at h
    split at h
    · cases hdr : deref hp this with
      | none => simp [addOutgoingTerm, hdr] at h
      | some t =>
        rw [(addOutgoingTerm_effect hdr ptm).1] at h
        cases h
        exact store_keepsKey hdr rfl rfl
    · cases h
  | addQuote this =>
    cases hdr : deref hp this with
    | none => simp [step, addQuote, hdr] at h
    | some t =>
      have h : addQuote hp this = some hp1 := h
      rw [addQuote_effect hdr] at h
      cases h
      exact store_keepsKey hdr rfl rfl
  | remQuote this =>
    cases hdr : deref hp this with
    | none => simp [step, remQuote, hdr] at h
    | some t =>
      have h : remQuote hp this = some hp1 := h
      rw [remQuote_effect hdr] at h
      cases h
      exact store_keepsKey hdr rfl rfl
  | addBoundVariable this =>
    have h : addBoundVariable hp.length hp this = some hp1 := h
    exact (addBoundVariable_onlyMarks _ _ _ _ h).1.keepsKey
  | release p => cases hnr

theorem run_keepsKey : ∀ (ops : List Op) (hp hp1 : Heap),
    (∀ op ∈ ops, op.isRelease = false) → run hp ops = some hp1 → KeepsKey hp hp1 := by
  intro ops
  induction ops with
  | nil =>
    intro hp hp1 _ h
    simp only [run, Option.some.injEq] at h
    rw [← h]; exact KeepsKey.refl_key hp
  | cons op ops ih =>
    intro hp hp1 hnr h
    simp only [run] at h
    cases hst : step hp op with
    | none => rw [hst] at h; cases h
    | some hp2 =>
      rw [hst] at h
      exact (step_keepsKey (hnr op (List.mem_cons_self _ _)) hst).trans_key
        (ih hp2 hp1 (fun o ho => hnr o (List.mem_cons_of_mem _ ho)) h)

theorem step_sentinelAtom {hp hp1 : Heap} {op : Op} (hsa : SentinelAtom hp)
    (h : step hp op = some hp1) : SentinelAtom hp1 := by
  obtain ⟨s, hs, hu⟩ := hsa
  cases hr : op.isRelease with
  | false =>
    obtain ⟨s1, hs1, e1, _⟩ := step_keepsKey hr h _ s hs
    exact ⟨s1, hs1, e1.trans hu⟩
  | true =>
    cases op with
    | release p =>
      have h : release hp p = some hp1 := h
      obtain ⟨hne, _, _, hrest⟩ := release_effect h
      exact ⟨s, by rw [hrest _ (Ne.symm hne)]; exact hs, hu⟩
    | mkRoot => cases hr
    | mkChild _ _ => cases hr
    | addOutgoingTerm _ _ => cases hr
    | addQuote _ => cases hr
    | remQuote _ => cases hr
    | addBoundVariable _ => cases hr

theorem run_sentinelAtom : ∀ (ops : List Op) (hp hp1 : Heap), SentinelAtom hp →
    run hp ops = some hp1 → SentinelAtom hp1 := by
  intro ops
  induction ops with
  | nil =>
    intro hp hp1 hsa h
    simp only [run, Option.some.injEq] at h
    rw [← h]; exact hsa
  | cons op ops ih =>
    intro hp hp1 hsa h
    simp only [run] at h
    cases hst : step hp op with
    | none => rw [hst] at h; cases h
    | some hp2 =>
      rw [hst] at h
      exact ih hp2 hp1 (step_sentinelAtom hsa hst) h

theorem init_sentinelAtom : SentinelAtom init :=
  ⟨sentinel, by decide, rfl⟩

/-! ## C19: the ordering is stable under the operations -/

/-- C19: after any sequence of steps that destroy nothing (addOutgoingTerm,
addQuote, remQuote, addBoundVariable, and also building nodes), applied to any
nodes, every node that was live has the atom and the parent it had, and
`less(a, b)` has the value it had. -/
theorem less_stable (hp hp1 : Heap) (ops : List Op)
    (hnr : ∀ op ∈ ops, op.isRelease = false) (hrun : run hp ops = some hp1)
    (a b : PatternTermPtr) (ta tb : PatternTerm)
    (hta : deref hp a = some ta) (htb : deref hp b = some tb) :
    (∃ ta1, deref hp1 a = some ta1 ∧ ta1.getHandle = ta.getHandle ∧
      ta1.getParent = ta.getParent) ∧
    (∃ tb1, deref hp1 b = some tb1 ∧ tb1.getHandle = tb.getHandle ∧
      tb1.getParent = tb.getParent) ∧
    less hp1 a b = less hp a b := by
  have hk := run_keepsKey ops hp hp1 hnr hrun
  obtain ⟨ta1, h1, e1, e2⟩ := hk a ta hta
  obtain ⟨tb1, h2, e3, e4⟩ := hk b tb htb
  refine ⟨⟨ta1, h1, e1, e2⟩, ⟨tb1, h2, e3, e4⟩, ?_⟩
  rw [less_eq_decide h1 h2, less_eq_decide hta htb]
  congr 1
  apply decide_eq_decide.mpr
  unfold Before
  rw [e1, e2, e3, e4]

/-- Witness for C19 on the clause `Pair(X, X)`: after `addQuote` on Pair and
`addBoundVariable` on the second X node, Pair is still less than that node. -/
theorem less_stable_witness :
    (∀ op ∈ [Op.addQuote 2, Op.addBoundVariable 4], op.isRelease = false) ∧
    run pairHeap [Op.addQuote 2, Op.addBoundVariable 4] =
      some [none, some sentinel,
        some ⟨⟨10⟩, 1, [3, 4], 1, true⟩,
        some ⟨⟨20⟩, 2, [], 0, false⟩,
        some ⟨⟨20⟩, 2, [], 0, true⟩] ∧
    less [none, some sentinel,
        some ⟨⟨10⟩, 1, [3, 4], 1, true⟩,
        some ⟨⟨20⟩, 2, [], 0, false⟩,
        some ⟨⟨20⟩, 2, [], 0, true⟩] 2 4 = less pairHeap 2 4 :=
  ⟨by decide, by decide,
    (less_stable pairHeap _ [Op.addQuote 2, Op.addBoundVariable 4] (by decide)
      (by decide : run pairHeap [Op.addQuote 2, Op.addBoundVariable 4] =
        some [none, some sentinel,
          some ⟨⟨10⟩, 1, [3, 4], 1, true⟩,
          some ⟨⟨20⟩, 2, [], 0, false⟩,
          some ⟨⟨20⟩, 2, [], 0, true⟩])
      2 4 ⟨⟨10⟩, 1, [3, 4], 0, false⟩ ⟨⟨20⟩, 2, [], 0, false⟩
      (by decide) (by decide)).2.2⟩

/-! ## C15: the colons of toString -/

/-- C15, counterexample: the node for Pair (2) is one parent edge below the
sentinel and `toString(":")` gives "-:10", with one colon and not two; an
X node (3) is two edges below and gets two colons, not three.  A node that
has a defined atom and sits under a default-constructed node (undefined atom)
under the sentinel is two edges below and gets one colon. -/
theorem toString_colons_clause_root :
    run init pairOps = some pairHeap ∧
    DefinedDepth pairHeap 2 1 ∧
    PatternTerm.toString 5 pairHeap 2 ":" = some "-:10" ∧
    colons "-:10" = 1 ∧ colons "-:10" ≠ 1 + 1 ∧
    DefinedDepth pairHeap 3 2 ∧
    PatternTerm.toString 5 pairHeap 3 ":" = some "-:10:20" ∧
    colons "-:10:20" = 2 ∧ colons "-:10:20" ≠ 2 + 1 ∧
    (run init [Op.mkRoot, Op.mkChild 2 ⟨10⟩] =
        some [none, some sentinel, some ⟨Handle.UNDEFINED, 1, [], 0, false⟩,
          some ⟨⟨10⟩, 2, [], 0, false⟩] ∧
      PatternTerm.toString 5 [none, some sentinel,
          some ⟨Handle.UNDEFINED, 1, [], 0, false⟩, some ⟨⟨10⟩, 2, [], 0, false⟩] 3 ":" =
        some "-:10") := by
  have d2 : DefinedDepth pairHeap 2 1 :=
    DefinedDepth.child (t := ⟨⟨10⟩, 1, [3, 4], 0, false⟩) (by decide) (by decide)
      (by decide) DefinedDepth.sentinel
  have d3 : DefinedDepth pairHeap 3 2 :=
    DefinedDepth.child (t := ⟨⟨20⟩, 2, [], 0, false⟩) (by decide) (by decide)
      (by decide) d2
  exact ⟨by decide, d2, by decide, by decide, by decide, d3, by decide, by decide,
    by decide, by decide⟩

theorem digitChar_ne_colon (n : Nat) (h : n < 10) : Nat.digitChar n ≠ ':' := by
  interval_cases n <;> decide

theorem toDigitsCore_no_colon : ∀ (fuel n : Nat) (ds : List Char),
    (∀ c ∈ ds, c ≠ ':') → ∀ c ∈ Nat.toDigitsCore 10 fuel n ds, c ≠ ':' := by
  intro fuel
  induction fuel with
  | zero => intro n ds h c hc; exact h c hc
  | succ fuel ih =>
    intro n ds h c hc
    have hds : ∀ c ∈ Nat.digitChar (n % 10) :: ds, c ≠ ':' := by
      intro c hc
      rcases List.mem_cons.mp hc with e | e
      · rw [e]; exact digitChar_ne_colon _ (Nat.mod_lt _ (by decide))
      · exact h c e
    rw [Nat.toDigitsCore] at hc
    split at hc
    · exact hds c hc
    · exact ih _ _ hds c hc

theorem colons_repr (n : Nat) : colons (Nat.repr n) = 0 := by
  unfold colons Nat.repr Nat.toDigits
  rw [List.count_eq_zero]
  intro hmem
  exact toDigitsCore_no_colon (n + 1) n [] (fun c hc => absurd hc (List.not_mem_nil c))
    ':' hmem rfl

theorem colons_append (a b : String) : colons (a ++ b) = colons a + colons b := by
  unfold colons
  simp [String.toList, List.count_append]

theorem toString_colons_dist {hp : Heap} {n : PatternTermPtr} {d : Nat}
    (hd : UndefinedDistance hp n d) :
    ∃ s, colons s = d ∧
      ∀ fuel, d < fuel → PatternTerm.toString fuel hp n ":" = some s := by
  induction hd with
  | @stop n t hn hu =>
    refine ⟨"-", by decide, ?_⟩
    intro fuel hf
    obtain ⟨k, hk⟩ : ∃ k, fuel = k + 1 := ⟨fuel - 1, by omega⟩
    rw [hk, PatternTerm.toString, hn]
    simp only [hu, if_true]
  | @edge n t d hn hdef _ ih =>
    obtain ⟨str, hc, hstr⟩ := ih
    refine ⟨str ++ (":" ++ Nat.repr t._handle.value), ?_, ?_⟩
    · rw [colons_append, colons_append, colons_repr, hc]
      have : colons ":" = 1 := by decide
      rw [this]
    · intro fuel hf
      obtain ⟨k, hk⟩ : ∃ k, fuel = k + 1 := ⟨fuel - 1, by omega⟩
      rw [hk, PatternTerm.toString, hn]
      simp only [hdef, if_false, hstr k (by omega)]

theorem UndefinedDistance.unique_dist {hp : Heap} {n : PatternTermPtr} {d : Nat}
    (h1 : UndefinedDistance hp n d) :
    ∀ {k : Nat}, UndefinedDistance hp n k → k = d := by
  induction h1 with
  | @stop n t hn hu =>
    intro k h2
    cases h2 with
    | @stop _ t2 hn2 _ => rfl
    | @edge _ t2 _ hn2 hdef _ =>
      rw [hn] at hn2
      cases hn2
      exact absurd hu hdef
  | @edge n t d hn hdef _ ih =>
    intro k h2
    cases h2 with
    | @stop _ t2 hn2 hu =>
      rw [hn] at hn2
      cases hn2
      exact absurd hu hdef
    | @edge _ t2 k2 hn2 _ hrest =>
      rw [hn] at hn2
      cases hn2
      rw [ih hrest]

theorem DefinedDepth.distance {hp : Heap} (hsa : SentinelAtom hp) {n : PatternTermPtr}
    {d : Nat} (hd : DefinedDepth hp n d) : UndefinedDistance hp n d := by
  induction hd with
  | sentinel =>
    obtain ⟨s, hs, hu⟩ := hsa
    exact UndefinedDistance.stop hs hu
  | @child n t d _ hn hdef _ ih => exact UndefinedDistance.edge hn hdef ih

theorem undefinedDistance_exists {hp : Heap} (hs : Struct hp) (hsa : SentinelAtom hp) :
    ∀ (n : Nat) (t : PatternTerm), deref hp n = some t →
      ∃ d, UndefinedDistance hp n d ∧ d < n := by
  intro n
  induction n using Nat.strong_induction_on with
  | _ n ih =>
    intro t hn
    by_cases hu : t._handle = Handle.UNDEFINED
    · exact ⟨0, UndefinedDistance.stop hn hu, Nat.pos_of_ne_zero (deref_bound hn).1⟩
    · have hne : n ≠ PatternTerm.UNDEFINED := by
        intro e
        obtain ⟨s, hsd, hsu⟩ := hsa
        rw [e, hsd] at hn
        cases hn
        exact hu hsu
      obtain ⟨hlt, hl⟩ := hs.parent n t hn hne
      obtain ⟨tp, htp⟩ := Option.isSome_iff_exists.mp hl
      obtain ⟨d, hd, hdlt⟩ := ih t._parent hlt tp htp
      exact ⟨d + 1, UndefinedDistance.edge hn hu hd,
        Nat.lt_of_le_of_lt (Nat.succ_le_of_lt hdlt) hlt⟩

/-- C15, amended: in every heap reached by the steps, every live node has a
distance `d`, the number of parent edges from it up to the nearest node on
its parent chain (itself included) that carries the undefined atom, and
`toString(":")` returns (with the recursion bound `hp.length`, and with any
bound above `d`) one string with exactly `d` occurrences of ':'.  When every
node from the node up to the sentinel, the sentinel excluded, has a defined
atom, `d` is the number of parent edges to the sentinel. -/
theorem toString_colons_eq_distance (ops : List Op) (hp : Heap)
    (hrun : run init ops = some hp) (n : PatternTermPtr) (t : PatternTerm)
    (hn : deref hp n = some t) :
    ∃ d s, UndefinedDistance hp n d ∧ colons s = d ∧
      PatternTerm.toString hp.length hp n ":" = some s ∧
      (∀ fuel, d < fuel → PatternTerm.toString fuel hp n ":" = some s) ∧
      (∀ k, UndefinedDistance hp n k → k = d) ∧
      (∀ k, DefinedDepth hp n k → k = d) := by
  obtain ⟨hs, _⟩ := run_struct ops init hp init_struct init_mono hrun
  have hsa := run_sentinelAtom ops init hp init_sentinelAtom hrun
  obtain ⟨d, hd, hdlt⟩ := undefinedDistance_exists hs hsa n t hn
  obtain ⟨s, hc, hstr⟩ := toString_colons_dist hd
  refine ⟨d, s, hd, hc, hstr hp.length (Nat.lt_trans hdlt (deref_bound hn).2), hstr,
    fun k hk => hd.unique_dist hk, fun k hk => hd.unique_dist (hk.distance hsa)⟩

/-- Witness for the amended C15 on a tree with a default-constructed root:
the node for atom 20 (4) is two edges below the root with the undefined atom
(and three below the sentinel), and its string has two colons. -/
theorem toString_colons_eq_distance_witness :
    run init rootedOps = some rootedHeap ∧
    deref rootedHeap 4 = some ⟨⟨20⟩, 3, [], 0, false⟩ ∧
    ∃ s, PatternTerm.toString rootedHeap.length rootedHeap 4 ":" = some s ∧
      colons s = 2 := by
  obtain ⟨d, s, _, hc, hs, _, hk, _⟩ :=
    toString_colons_eq_distance rootedOps rootedHeap (by decide) 4
      ⟨⟨20⟩, 3, [], 0, false⟩ (by decide)
  have h4 : UndefinedDistance rootedHeap 4 2 :=
    UndefinedDistance.edge (t := ⟨⟨20⟩, 3, [], 0, false⟩) (by decide) (by decide)
      (UndefinedDistance.edge (t := ⟨⟨10⟩, 2, [4], 0, false⟩) (by decide) (by decide)
        (UndefinedDistance.stop (t := ⟨Handle.UNDEFINED, 1, [3], 0, false⟩) (by decide)
          rfl))
  exact ⟨by decide, by decide, s, hs, by rw [hc, hk 2 h4]⟩

/-! ## C16: getOutgoingTerm below the arity -/

theorem argsOf_snoc (H : List Op) (op : Op) (n : PatternTermPtr) :
    argsOf (H ++ [op]) n = argsOf H n ++ argsOf [op] n := by
  unfold argsOf
  rw [List.filterMap_append]

theorem alloc_cells {hp : Heap} {t tn : PatternTerm} {n : PatternTermPtr}
    (hn : deref (hp ++ [some t]) n = some tn) :
    (n < hp.length ∧ deref hp n = some tn) ∨ (n = hp.length ∧ tn = t) := by
  rcases Nat.lt_or_eq_of_le (deref_append_bound hn) with hlt | heq
  · rw [deref_append_old _ hlt] at hn
    exact Or.inl ⟨hlt, hn⟩
  · have h0 : hp.length ≠ 0 := by
      intro e
      rw [heq, e] at hn
      exact absurd rfl (deref_bound hn).1
    rw [heq, deref_append_new _ h0] at hn
    cases hn
    exact Or.inr ⟨heq, rfl⟩

theorem alloc_attached {H : List Op} {hp : Heap} {op : Op} {t : PatternTerm}
    (ha : Attached H hp) (hop : ∀ n, argsOf [op] n = []) (ht : t._outgoing = []) :
    Attached (H ++ [op]) (hp ++ [some t]) := by
  constructor
  · intro n tn hn
    rw [argsOf_snoc, hop, List.append_nil]
    rcases alloc_cells hn with ⟨_, hd⟩ | ⟨he, htn⟩
    · exact ha.1 n tn hd
    · rw [htn, ht, he, ha.2 hp.length (Nat.le_refl _)]
  · intro n hle
    rw [argsOf_snoc, hop, List.append_nil]
    rw [List.length_append, List.length_singleton] at hle
    exact ha.2 n (Nat.le_of_succ_le hle)

theorem store_attached {H : List Op} {hp : Heap} {op : Op} {p : PatternTermPtr}
    {t t1 : PatternTerm} (ha : Attached H hp) (ht : deref hp p = some t)
    (hout : t1._outgoing = t._outgoing ++ argsOf [op] p)
    (hop : ∀ n, n ≠ p → argsOf [op] n = []) :
    Attached (H ++ [op]) (store hp p t1) := by
  obtain ⟨h0, hlt⟩ := deref_bound ht
  constructor
  · intro n tn hn
    rw [argsOf_snoc]
    by_cases hnp : n = p
    · rw [hnp, deref_store_same t1 h0 hlt] at hn
      cases hn
      rw [hnp, hout, ha.1 p t ht]
    · rw [deref_store_other t1 hnp] at hn
      rw [hop n hnp, List.append_nil]
      exact ha.1 n tn hn
  · intro n hle
    rw [length_store] at hle
    have hnp : n ≠ p := by
      intro e
      rw [e] at hle
      exact Nat.lt_irrefl _ (Nat.lt_of_lt_of_le hlt hle)
    rw [argsOf_snoc, hop n hnp, List.append_nil]
    exact ha.2 n hle

theorem step_attached {H : List Op} {hp hp1 : Heap} {op : Op} (ha : Attached H hp)
    (h : step hp op = some hp1) : Attached (H ++ [op]) hp1 := by
  cases op with
  | mkRoot =>
    simp only [step, make_shared, Option.some.injEq] at h
    rw [← h]
    exact alloc_attached ha (fun n => rfl) rfl
  | mkChild parent hdl =>
    simp only [step] at h
    cases hnew : PatternTerm.new hp parent hdl with
    | none => rw [hnew] at h; cases h
    | some t =>
      rw [hnew] at h
      simp only [make_shared, Option.some.injEq] at h
      obtain ⟨tp, _, ht⟩ := new_effect hnew
      rw [← h]
      exact alloc_attached ha (fun n => rfl) (by rw [ht])
  | addOutgoingTerm this ptm =>
    simp only [step] at h
    split at h
    · cases hdr : deref hp this with
      | none => simp [addOutgoingTerm, hdr] at h
      | some t =>
        rw [(addOutgoingTerm_effect hdr ptm).1] at h
        cases h
        apply store_attached ha hdr
        · simp [argsOf]
        · intro n hn
          have : ¬ this = n := fun e => hn e.symm
          simp [argsOf, this]
    · cases h
  | addQuote this =>
    cases hdr : deref hp this with
    | none => simp [step, addQuote, hdr] at h
    | some t =>
      have h : addQuote hp this = some hp1 := h
      rw [addQuote_effect hdr] at h
      cases h
      exact store_attached ha hdr (by simp [argsOf]) (fun n _ => rfl)
  | remQuote this =>
    cases hdr : deref hp this with
    | none => simp [step, remQuote, hdr] at h
    | some t =>
      have h : remQuote hp this = some hp1 := h
      rw [remQuote_effect hdr] at h
      cases h
      exact store_attached ha hdr (by simp [argsOf]) (fun n _ => rfl)
  | addBoundVariable this =>
    have h : addBoundVariable hp.length hp this = some hp1 := h
    obtain ⟨hom, _⟩ := addBoundVariable_onlyMarks _ _ _ _ h
    have hop : ∀ n, argsOf [Op.addBoundVariable this] n = [] := fun n => rfl
    constructor
    · intro n tn hn
      rw [argsOf_snoc, hop, List.append_nil]
      cases hdr : deref hp n with
      | none => rw [hom.2.1 n hdr] at hn; cases hn
      | some t =>
        obtain ⟨b, hb, _⟩ := hom.2.2 n t hdr
        rw [hb] at hn
        cases hn
        exact ha.1 n t hdr
    · intro n hle
      rw [argsOf_snoc, hop, List.append_nil]
      rw [hom.1] at hle
      exact ha.2 n hle
  | release p =>
    have h : release hp p = some hp1 := h
    obtain ⟨_, _, hgone, hrest⟩ := release_effect h
    have hlen : hp1.length = hp.length := by
      unfold release at h
      split at h
      · cases h; simp
      · cases h
    have hop : ∀ n, argsOf [Op.release p] n = [] := fun n => rfl
    constructor
    · intro n tn hn
      have hnp : n ≠ p := by
        intro e; rw [e, hgone] at hn; cases hn
      rw [hrest n hnp] at hn
      rw [argsOf_snoc, hop, List.append_nil]
      exact ha.1 n tn hn
    · intro n hle
      rw [argsOf_snoc, hop, List.append_nil]
      rw [hlen] at hle
      exact ha.2 n hle

theorem run_attached : ∀ (ops H : List Op) (hp hp1 : Heap), Attached H hp →
    run hp ops = some hp1 → Attached (H ++ ops) hp1 := by
  intro ops
  induction ops with
  | nil =>
    intro H hp hp1 ha h
    simp only [run, Option.some.injEq] at h
    rw [← h, List.append_nil]; exact ha
  | cons op ops ih =>
    intro H hp hp1 ha h
    simp only [run] at h
    cases hst : step hp op with
    | none => rw [hst] at h; cases h
    | some hp2 =>
      rw [hst] at h
      have := ih (H ++ [op]) hp2 hp1 (step_attached ha hst) h
      rw [List.append_assoc] at this
      exact this

theorem init_attached : Attached [] init := by
  constructor
  · intro n t hn
    rw [(deref_init hn).2]
    rfl
  · intro n _
    rfl

/-- C16: in every heap reached by the steps `ops`, for a live node `n` and an
index `i` below its arity, let `c` be the pointer passed to the `(i+1)`-th
call of `addOutgoingTerm` on `n`.  Then `getOutgoingTerm(i)` returns `c` when
the object at `c` is live, and otherwise throws the exception "expired
outgoing set index", which is not the exception for an index out of range.
When every pointer attached to `n` is live, `c` is also the entry `i` of
`getOutgoingSet()`. -/
theorem getOutgoingTerm_attached (ops : List Op) (hp : Heap)
    (hrun : run init ops = some hp) (n : PatternTermPtr) (t : PatternTerm)
    (hn : deref hp n = some t) (i : Nat) (hi : i < t.getArity) :
    t.getArity = (argsOf ops n).length ∧
    ∃ c, (argsOf ops n)[i]? = some c ∧
      ((deref hp c).isSome → t.getOutgoingTerm hp i = Except.ok c) ∧
      (¬ (deref hp c).isSome →
        t.getOutgoingTerm hp i = Except.error ⟨expiredIndex, i⟩) ∧
      expiredIndex ≠ invalidIndex ∧
      ((∀ w ∈ t._outgoing, (deref hp w).isSome) →
        (t.getOutgoingSet hp)[i]? = some c ∧ t.getOutgoingTerm hp i = Except.ok c) := by
  have ha := run_attached ops [] init hp init_attached hrun
  rw [List.nil_append] at ha
  have hout : t._outgoing = argsOf ops n := ha.1 n t hn
  have hi2 : i < t._outgoing.length := hi
  have hok : (deref hp (t._outgoing.get ⟨i, hi2⟩)).isSome →
      t.getOutgoingTerm hp i = Except.ok (t._outgoing.get ⟨i, hi2⟩) := by
    intro hl
    unfold PatternTerm.getOutgoingTerm
    rw [dif_pos hi]
    have hla : lock hp (t._outgoing.get ⟨i, hi2⟩) = t._outgoing.get ⟨i, hi2⟩ := by
      unfold lock; rw [if_pos hl]
    have hne : ¬ lock hp (t._outgoing.get ⟨i, hi2⟩) = nullptr :=
      (lock_ne_nullptr_iff hp _).mpr hl
    rw [hla] at hne
    simp only [hla, hne, if_false]
  refine ⟨by rw [← hout]; rfl, t._outgoing.get ⟨i, hi2⟩, ?_, hok, ?_, by decide, ?_⟩
  · rw [← hout]
    exact List.getElem?_eq_getElem hi2
  · intro hl
    unfold PatternTerm.getOutgoingTerm
    rw [dif_pos hi]
    have hnull : lock hp (t._outgoing.get ⟨i, hi2⟩) = nullptr := by
      unfold lock; rw [if_neg hl]
    simp only [hnull, if_true]
    rfl
  · intro hall
    refine ⟨?_, hok (hall _ (List.get_mem _ _ _))⟩
    rw [getOutgoingSet_all_live hp t hall]
    exact List.getElem?_eq_getElem hi2

/-- Witness for C16 on the heap in which the attached child was destroyed:
index 0 of node 2 is the pointer 3 that was attached, and the call throws the
exception for an expired child. -/
theorem getOutgoingTerm_attached_witness :
    run init releasedOps = some releasedHeap ∧
    deref releasedHeap 2 = some ⟨⟨10⟩, 1, [3], 0, false⟩ ∧
    (0 : Nat) < PatternTerm.getArity ⟨⟨10⟩, 1, [3], 0, false⟩ ∧
    ∃ c, (argsOf releasedOps 2)[0]? = some c ∧
      ((deref releasedHeap c).isSome →
        PatternTerm.getOutgoingTerm releasedHeap ⟨⟨10⟩, 1, [3], 0, false⟩ 0 =
          Except.ok c) ∧
      (¬ (deref releasedHeap c).isSome →
        PatternTerm.getOutgoingTerm releasedHeap ⟨⟨10⟩, 1, [3], 0, false⟩ 0 =
          Except.error ⟨expiredIndex, 0⟩) ∧
      expiredIndex ≠ invalidIndex ∧
      ((∀ w ∈ PatternTerm._outgoing ⟨⟨10⟩, 1, [3], 0, false⟩,
          (deref releasedHeap w).isSome) →
        (PatternTerm.getOutgoingSet releasedHeap ⟨⟨10⟩, 1, [3], 0, false⟩)[0]? = some c ∧
        PatternTerm.getOutgoingTerm releasedHeap ⟨⟨10⟩, 1, [3], 0, false⟩ 0 =
          Except.ok c) :=
  ⟨by decide, by decide, by decide,
    (getOutgoingTerm_attached releasedOps releasedHeap (by decide) 2
      ⟨⟨10⟩, 1, [3], 0, false⟩ (by decide) 0 (by decide)).2⟩

/-! ## C17: addQuote and remQuote -/

theorem store_store (hp : Heap) (p : PatternTermPtr) (a b : PatternTerm) :
    store (store hp p a) p b = store hp p b := by
  unfold store
  rw [List.set_set]

theorem store_self {hp : Heap} {p : PatternTermPtr} {t : PatternTerm}
    (ht : deref hp p = some t) : store hp p t = hp := by
  obtain ⟨h0, hlt⟩ := deref_bound ht
  have hcell : hp[p]? = some (some t) := by
    unfold deref at ht
    rw [if_neg h0] at ht
    cases hg : hp[p]? with
    | none =>
      rw [List.get?_eq_getElem?, hg] at ht
      cases ht
    | some c =>
      rw [List.get?_eq_getElem?, hg] at ht
      have : c = some t := ht
      rw [this]
  unfold store
  apply List.ext_getElem?
  intro k
  rw [List.getElem?_set]
  by_cases hk : p = k
  · rw [if_pos hk, ← hk, if_pos hlt, hcell]
  · rw [if_neg hk]

/-- C17: on a live node whose `_quote_depth` is a value of `unsigned int`,
`addQuote` sets the depth to `(depth + 1) mod 2^32` and `remQuote` sets it to
`(depth - 1) mod 2^32`; each leaves the other members of the node and every
other node as they were; and `remQuote` after `addQuote` gives back the heap
it started from. -/
theorem quote_changes_only_depth (hp : Heap) (this : PatternTermPtr) (t : PatternTerm)
    (ht : deref hp this = some t) (hd : t._quote_depth < UINT_MOD) :
    (∃ hp1, addQuote hp this = some hp1 ∧
      deref hp1 this =
        some { t with _quote_depth := (t._quote_depth + 1) % UINT_MOD } ∧
      (t._quote_depth + 1 < UINT_MOD →
        (t._quote_depth + 1) % UINT_MOD = t._quote_depth + 1) ∧
      (∀ q, q ≠ this → deref hp1 q = deref hp q) ∧
      remQuote hp1 this = some hp) ∧
    (∃ hp2, remQuote hp this = some hp2 ∧
      deref hp2 this =
        some { t with _quote_depth := (t._quote_depth + UINT_MOD - 1) % UINT_MOD } ∧
      (0 < t._quote_depth →
        (t._quote_depth + UINT_MOD - 1) % UINT_MOD = t._quote_depth - 1) ∧
      (∀ q, q ≠ this → deref hp2 q = deref hp q)) := by
  obtain ⟨h0, hlt⟩ := deref_bound ht
  constructor
  · refine ⟨_, addQuote_effect ht, deref_store_same _ h0 hlt, ?_,
      fun q hq => deref_store_other _ hq, ?_⟩
    · intro h; exact Nat.mod_eq_of_lt h
    · rw [remQuote_effect (deref_store_same _ h0 hlt), store_store]
      have hback : ((t._quote_depth + 1) % UINT_MOD + UINT_MOD - 1) % UINT_MOD =
          t._quote_depth := by
        rw [UINT_MOD_eq] at hd ⊢
        omega
      simp only [hback]
      rw [store_self ht]
  · refine ⟨_, remQuote_effect ht, deref_store_same _ h0 hlt, ?_,
      fun q hq => deref_store_other _ hq⟩
    intro hpos
    rw [UINT_MOD_eq] at hd ⊢
    omega

/-- Witness for C17: `addQuote` on the quotation node (2) of scenario S2. -/
theorem quote_changes_only_depth_witness :
    deref s2Heap 2 = some ⟨⟨50⟩, 1, [3], 1, true⟩ ∧
    PatternTerm._quote_depth ⟨⟨50⟩, 1, [3], 1, true⟩ < UINT_MOD ∧
    ∃ hp1, addQuote s2Heap 2 = some hp1 ∧
      deref hp1 2 = some { (⟨⟨50⟩, 1, [3], 1, true⟩ : PatternTerm) with
        _quote_depth := (PatternTerm._quote_depth ⟨⟨50⟩, 1, [3], 1, true⟩ + 1) % UINT_MOD } ∧
      (PatternTerm._quote_depth ⟨⟨50⟩, 1, [3], 1, true⟩ + 1 < UINT_MOD →
        (PatternTerm._quote_depth ⟨⟨50⟩, 1, [3], 1, true⟩ + 1) % UINT_MOD =
          PatternTerm._quote_depth ⟨⟨50⟩, 1, [3], 1, true⟩ + 1) ∧
      (∀ q, q ≠ 2 → deref hp1 q = deref s2Heap q) ∧
      remQuote hp1 2 = some s2Heap :=
  ⟨by decide, by decide,
    (quote_changes_only_depth s2Heap 2 ⟨⟨50⟩, 1, [3], 1, true⟩ (by decide)
      (by decide)).1⟩

/-! ## C18: what addBoundVariable leaves alone -/

theorem Ancestor.linear {hp : Heap} {a n : PatternTermPtr} (h1 : Ancestor hp a n) :
    ∀ {b : PatternTermPtr}, Ancestor hp b n → a = b ∨ Ancestor hp a b ∨ Ancestor hp b a := by
  induction h1 with
  | @parent n t hn hl =>
    intro b h2
    cases h2 with
    | @parent _ t2 hn2 _ =>
      rw [hn] at hn2
      cases hn2
      exact Or.inl rfl
    | @up _ _ t2 hn2 hanc =>
      rw [hn] at hn2
      cases hn2
      exact Or.inr (Or.inr hanc)
  | @up a n t hn hanc ih =>
    intro b h2
    cases h2 with
    | @parent _ t2 hn2 _ =>
      rw [hn] at hn2
      cases hn2
      exact Or.inr (Or.inl hanc)
    | @up _ _ t2 hn2 hanc2 =>
      rw [hn] at hn2
      cases hn2
      exact ih hanc2

theorem with_flag_self (t : PatternTerm) :
    ({ t with _has_any_bound_var := t._has_any_bound_var } : PatternTerm) = t := by
  cases t; rfl

/-- C18: in every heap reached by the steps, `addBoundVariable` called on a
live node `n` other than the sentinel returns a heap in which the same cells
hold objects, every object has the atom, parent, children and quote depth it
had, the sentinel is the object it was, every node that is neither `n` nor an
ancestor of `n` is the object it was, and every node that did change lies
below every ancestor of `n` that was already marked.  If `n` was already
marked the heap is unchanged. -/
theorem addBoundVariable_frame (ops : List Op) (hp : Heap)
    (hrun : run init ops = some hp) (n : PatternTermPtr)
    (hne : n ≠ PatternTerm.UNDEFINED) (hl : (deref hp n).isSome) :
    ∃ hp1, step hp (Op.addBoundVariable n) = some hp1 ∧
      hp1.length = hp.length ∧
      (∀ p, deref hp p = none → deref hp1 p = none) ∧
      (∀ p t, deref hp p = some t →
        ∃ b, deref hp1 p = some { t with _has_any_bound_var := b }) ∧
      deref hp1 PatternTerm.UNDEFINED = deref hp PatternTerm.UNDEFINED ∧
      (∀ p, p ≠ n → ¬ Ancestor hp p n → deref hp1 p = deref hp p) ∧
      (∀ p, deref hp1 p ≠ deref hp p →
        (p = n ∨ Ancestor hp p n) ∧
        ∀ q, Ancestor hp q n → Flagged hp q → Ancestor hp q p) ∧
      (Flagged hp n → hp1 = hp) := by
  obtain ⟨hs, hm⟩ := run_struct ops init hp init_struct init_mono hrun
  obtain ⟨hp1, hstep, hs1, _, hext, _⟩ := mark_returns hrun hne hl
  have changed : ∀ p, deref hp1 p ≠ deref hp p →
      ∃ t, deref hp p = some t ∧ t._has_any_bound_var = false ∧
        deref hp1 p = some { t with _has_any_bound_var := true } ∧
        (p = n ∨ Ancestor hp p n) := by
    intro p hch
    cases hd : deref hp p with
    | none => exact absurd ((hext.2.1 p hd).trans hd.symm) hch
    | some t =>
      obtain ⟨b, hb, hmono, hnew⟩ := hext.2.2 p t hd
      cases hfl : t._has_any_bound_var with
      | true =>
        exfalso
        apply hch
        rw [hb, hd, hmono hfl, ← hfl, with_flag_self]
      | false =>
        cases hbv : b with
        | false =>
          exfalso
          apply hch
          rw [hb, hd, hbv, ← hfl, with_flag_self]
        | true => exact ⟨t, rfl, hfl, by rw [hb, hbv], hnew hbv hfl⟩
  have hsent : deref hp1 PatternTerm.UNDEFINED = deref hp PatternTerm.UNDEFINED := by
    by_contra hch
    obtain ⟨t, _, _, h1, _⟩ := changed _ hch
    obtain ⟨s1, hs1d, hs1f, _⟩ := hs1.sent
    rw [h1] at hs1d
    cases hs1d
    cases hs1f
  refine ⟨hp1, hstep, hext.1, hext.2.1, ?_, hsent, ?_, ?_, ?_⟩
  · intro p t ht
    obtain ⟨b, hb, _⟩ := hext.2.2 p t ht
    exact ⟨b, hb⟩
  · intro p hpn hna
    by_contra hch
    obtain ⟨_, _, _, _, hor⟩ := changed p hch
    rcases hor with e | e
    · exact hpn e
    · exact hna e
  · intro p hch
    obtain ⟨t, ht, hfl, _, hor⟩ := changed p hch
    refine ⟨hor, ?_⟩
    intro q hq hfq
    rcases hor with e | e
    · rw [e]; exact hq
    · have hpu : p ≠ PatternTerm.UNDEFINED := by
        intro e2
        rw [e2] at hch
        exact hch hsent
      rcases e.linear hq with h | h | h
      · exfalso
        obtain ⟨tq, htq, hfq2⟩ := hfq
        rw [← h, ht] at htq
        cases htq
        have hfq3 : t._has_any_bound_var = true := hfq2
        rw [hfl] at hfq3
        cases hfq3
      · exfalso
        obtain ⟨tp, htp, hfp⟩ := flagged_ancestors hs hm h hfq hpu
        rw [ht] at htp
        cases htp
        have hfp2 : t._has_any_bound_var = true := hfp
        rw [hfl] at hfp2
        cases hfp2
      · exact h
  · intro hf
    have hstep2 : addBoundVariable hp.length hp n = some hp1 := hstep
    have hlen := hs.length_ge
    obtain ⟨k, hk⟩ : ∃ k, hp.length = k + 1 := ⟨hp.length - 1, by omega⟩
    rw [hk, addBoundVariable_flagged hf k] at hstep2
    exact (Option.some.inj hstep2).symm

/-- Witness for C18 on the clause `Pair(X, X)`: `addBoundVariable` on the first
X node (3) leaves the second X node (4), which is outside the parent chain
of 3, as it was. -/
theorem addBoundVariable_frame_witness :
    run init pairOps = some pairHeap ∧
    (3 : PatternTermPtr) ≠ PatternTerm.UNDEFINED ∧ (deref pairHeap 3).isSome ∧
    ∃ hp1, step pairHeap (Op.addBoundVariable 3) = some hp1 ∧
      hp1.length = pairHeap.length ∧
      (∀ p, deref pairHeap p = none → deref hp1 p = none) ∧
      (∀ p t, deref pairHeap p = some t →
        ∃ b, deref hp1 p = some { t with _has_any_bound_var := b }) ∧
      deref hp1 PatternTerm.UNDEFINED = deref pairHeap PatternTerm.UNDEFINED ∧
      (∀ p, p ≠ 3 → ¬ Ancestor pairHeap p 3 → deref hp1 p = deref pairHeap p) ∧
      (∀ p, deref hp1 p ≠ deref pairHeap p →
        (p = 3 ∨ Ancestor pairHeap p 3) ∧
        ∀ q, Ancestor pairHeap q 3 → Flagged pairHeap q → Ancestor pairHeap q p) ∧
      (Flagged pairHeap 3 → hp1 = pairHeap) :=
  ⟨by decide, by decide, by decide,
    addBoundVariable_frame pairOps pairHeap (by decide) 3 (by decide) (by decide)⟩

/-! ## C20: quote depth along the parent chain -/

theorem KeepsDepth.some_depth {hp hp1 : Heap} (h : KeepsDepth hp hp1) {p : PatternTermPtr}
    {t1 : PatternTerm} (ht : deref hp1 p = some t1) :
    ∃ t, deref hp p = some t ∧ t._parent = t1._parent ∧
      t._quote_depth = t1._quote_depth := by
  have h1 := h p
  rw [ht] at h1
  cases hd : deref hp p with
  | none => rw [hd] at h1; cases h1
  | some t =>
    rw [hd] at h1
    simp only [Option.map_some', Option.some.injEq, Prod.mk.injEq] at h1
    exact ⟨t, rfl, h1.1.symm, h1.2.symm⟩

theorem KeepsDepth.depthLe {hp hp1 : Heap} (h : KeepsDepth hp hp1) (hd : DepthLe hp) :
    DepthLe hp1 := by
  intro n t1 hn hne
  obtain ⟨t, ht, e1, e2⟩ := h.some_depth hn
  obtain ⟨tp, htp, hle⟩ := hd n t ht hne
  have h2 := h t._parent
  rw [htp] at h2
  cases hd1 : deref hp1 t._parent with
  | none => rw [hd1] at h2; cases h2
  | some tp1 =>
    rw [hd1] at h2
    simp only [Option.map_some', Option.some.injEq, Prod.mk.injEq] at h2
    refine ⟨tp1, by rw [← e1]; exact hd1, ?_⟩
    rw [h2.2, ← e2]
    exact hle

theorem store_keepsDepth {hp : Heap} {p : PatternTermPtr} {t t1 : PatternTerm}
    (ht : deref hp p = some t) (hpar : t1._parent = t._parent)
    (hq : t1._quote_depth = t._quote_depth) : KeepsDepth hp (store hp p t1) := by
  intro q
  by_cases hqp : q = p
  · obtain ⟨h0, hlt⟩ := deref_bound ht
    rw [hqp, deref_store_same t1 h0 hlt, ht]
    simp [hpar, hq]
  · rw [deref_store_other t1 hqp]

theorem OnlyMarks.keepsDepth {hp hp1 : Heap} (h : OnlyMarks hp hp1) : KeepsDepth hp hp1 := by
  intro p
  cases hd : deref hp p with
  | none => rw [h.2.1 p hd]
  | some t =>
    obtain ⟨b, hb, _⟩ := h.2.2 p t hd
    rw [hb]
    rfl

theorem alloc_depthLe {hp : Heap} {t tp : PatternTerm} (hd : DepthLe hp)
    (htp : deref hp t._parent = some tp) (hle : tp._quote_depth ≤ t._quote_depth) :
    DepthLe (hp ++ [some t]) := by
  intro n tn hn hne
  rcases alloc_cells hn with ⟨_, hold⟩ | ⟨_, hnew⟩
  · obtain ⟨tq, htq, hle2⟩ := hd n tn hold hne
    exact ⟨tq, by rw [deref_append_old _ (deref_bound htq).2]; exact htq, hle2⟩
  · rw [hnew]
    exact ⟨tp, by rw [deref_append_old _ (deref_bound htp).2]; exact htp, hle⟩

theorem step_depthLe {hp hp1 : Heap} {op : Op} (hd : DepthLe hp)
    (hdis : disciplined hp op = true) (h : step hp op = some hp1) : DepthLe hp1 := by
  cases op with
  | mkRoot =>
    simp only [step, make_shared, Option.some.injEq] at h
    rw [← h]
    simp only [disciplined] at hdis
    cases hs : deref hp PatternTerm.UNDEFINED with
    | none => rw [hs] at hdis; cases hdis
    | some s =>
      rw [hs] at hdis
      have hz : s._quote_depth = 0 := by simpa using hdis
      exact alloc_depthLe hd (t := PatternTerm.default PatternTerm.UNDEFINED) hs
        (by rw [hz]; exact Nat.zero_le _)
  | mkChild parent hdl =>
    simp only [step] at h
    cases hnew : PatternTerm.new hp parent hdl with
    | none => rw [hnew] at h; cases h
    | some t =>
      rw [hnew] at h
      simp only [make_shared, Option.some.injEq] at h
      obtain ⟨tp, htp, ht⟩ := new_effect hnew
      rw [← h]
      exact alloc_depthLe hd (by rw [ht]; exact htp) (by rw [ht])
  | addOutgoingTerm this ptm =>
    simp only [step] at h
    split at h
    · cases hdr : deref hp this with
      | none => simp [addOutgoingTerm, hdr] at h
      | some t =>
        rw [(addOutgoingTerm_effect hdr ptm).1] at h
        cases h
        have hk : KeepsDepth hp
            (store hp this { t with _outgoing := t._outgoing ++ [ptm] }) :=
          store_keepsDepth hdr rfl rfl
        exact hk.depthLe hd
    · cases h
  | addQuote this =>
    cases hdr : deref hp this with
    | none => simp [step, addQuote, hdr] at h
    | some t =>
      have h : addQuote hp this = some hp1 := h
      rw [addQuote_effect hdr] at h
      cases h
      simp only [disciplined, hdr, Bool.and_eq_true, decide_eq_true_eq] at hdis
      obtain ⟨hun, hno⟩ := hdis
      obtain ⟨h0, hlt⟩ := deref_bound hdr
      intro n tn hn hne
      by_cases hnt : n = this
      · rw [hnt, deref_store_same _ h0 hlt] at hn
        cases hn
        obtain ⟨tp, htp, hle⟩ := hd this t hdr (hnt ▸ hne)
        refine ⟨tp, ?_, ?_⟩
        · show deref (store hp this _) t._parent = some tp
          rw [deref_store_other _ (unowned_parent hun hdr)]
          exact htp
        · show tp._quote_depth ≤ (t._quote_depth + 1) % UINT_MOD
          rw [Nat.mod_eq_of_lt hno]
          exact Nat.le_succ_of_le hle
      · rw [deref_store_other _ hnt] at hn
        obtain ⟨tp, htp, hle⟩ := hd n tn hn hne
        exact ⟨tp, by rw [deref_store_other _ (unowned_parent hun hn)]; exact htp, hle⟩
  | remQuote this => cases hdis
  | addBoundVariable this =>
    have h : addBoundVariable hp.length hp this = some hp1 := h
    exact (addBoundVariable_onlyMarks _ _ _ _ h).1.keepsDepth.depthLe hd
  | release p => cases hdis

theorem runDisciplined_run : ∀ (ops : List Op) (hp hp1 : Heap),
    runDisciplined hp ops = some hp1 → run hp ops = some hp1 := by
  intro ops
  induction ops with
  | nil => intro hp hp1 h; exact h
  | cons op ops ih =>
    intro hp hp1 h
    simp only [runDisciplined] at h
    split at h
    · cases hst : step hp op with
      | none => rw [hst] at h; cases h
      | some hp2 =>
        rw [hst] at h
        simp only [run, hst]
        exact ih hp2 hp1 h
    · cases h

theorem run_depthLe : ∀ (ops : List Op) (hp hp1 : Heap), DepthLe hp →
    runDisciplined hp ops = some hp1 → DepthLe hp1 := by
  intro ops
  induction ops with
  | nil =>
    intro hp hp1 hd h
    simp only [runDisciplined, Option.some.injEq] at h
    rw [← h]; exact hd
  | cons op ops ih =>
    intro hp hp1 hd h
    simp only [runDisciplined] at h
    split at h
    · rename_i hdis
      cases hst : step hp op with
      | none => rw [hst] at h; cases h
      | some hp2 =>
        rw [hst] at h
        exact ih hp2 hp1 (step_depthLe hd hdis hst) h
    · cases h

theorem init_depthLe : DepthLe init := by
  intro n t hn hne
  exact absurd (deref_init hn).1 hne

/-- C20: in every heap reached from the initial one (the sentinel alone, with
depth 0) by steps that keep the construction discipline, every live node other
than the sentinel has a `_quote_depth` at least that of its parent, and a node
that reports `isQuoted()` true has `_quote_depth > 0`.  Without the
discipline this fails: after `addQuote` on a node under which a child was
already built, the child reports `isQuoted()` true with `_quote_depth` 0. -/
theorem quote_depth_monotone_down (ops : List Op) (hp : Heap)
    (hrun : runDisciplined init ops = some hp) (n : PatternTermPtr) (t : PatternTerm)
    (hn : deref hp n = some t) (hne : n ≠ PatternTerm.UNDEFINED) :
    run init ops = some hp ∧
    (∃ tp, deref hp t._parent = some tp ∧ tp._quote_depth ≤ t._quote_depth) ∧
    (t.isQuoted hp = some true → 0 < t._quote_depth) ∧
    (runDisciplined init
        [Op.mkChild PatternTerm.UNDEFINED ⟨10⟩, Op.mkChild 2 ⟨20⟩, Op.addQuote 2] = none ∧
      run init [Op.mkChild PatternTerm.UNDEFINED ⟨10⟩, Op.mkChild 2 ⟨20⟩, Op.addQuote 2] =
        some [none, some sentinel, some ⟨⟨10⟩, 1, [], 1, false⟩,
          some ⟨⟨20⟩, 2, [], 0, false⟩] ∧
      PatternTerm.isQuoted [none, some sentinel, some ⟨⟨10⟩, 1, [], 1, false⟩,
          some ⟨⟨20⟩, 2, [], 0, false⟩] ⟨⟨20⟩, 2, [], 0, false⟩ = some true) := by
  have hd := run_depthLe ops init hp init_depthLe hrun
  obtain ⟨tp, htp, hle⟩ := hd n t hn hne
  refine ⟨runDisciplined_run ops init hp hrun, ⟨tp, htp, hle⟩, ?_, by decide⟩
  intro hq
  unfold PatternTerm.isQuoted at hq
  rw [htp] at hq
  simp only [Option.some.injEq, decide_eq_true_eq] at hq
  exact Nat.lt_of_lt_of_le hq hle

/-- Witness for C20 on scenario S2, whose steps keep the discipline: Foo (3)
under the quotation node reports `isQuoted()` true and has depth 1. -/
theorem quote_depth_monotone_down_witness :
    runDisciplined init s2Ops = some s2Heap ∧
    deref s2Heap 3 = some ⟨⟨51⟩, 2, [4], 1, true⟩ ∧
    (3 : PatternTermPtr) ≠ PatternTerm.UNDEFINED ∧
    (PatternTerm.isQuoted s2Heap ⟨⟨51⟩, 2, [4], 1, true⟩ = some true →
      0 < PatternTerm._quote_depth ⟨⟨51⟩, 2, [4], 1, true⟩) :=
  ⟨by decide, by decide, by decide,
    (quote_depth_monotone_down s2Ops s2Heap (by decide) 3 ⟨⟨51⟩, 2, [4], 1, true⟩
      (by decide) (by decide)).2.2.1⟩

end opencog
